import Mathlib

/-!
# sdpdump: ADPCM decoder, container reader, payload locator and WAV emitter

A shallow embedding of `src/sdpdump.cpp`.

* `int` values are `Int`; every `int` addition or negation of the source goes
  through `wrapInt32`, and `static_cast<int16_t>` is `castInt16`.
* `uint8_t` is `Byte = Fin 256`; `uint32_t` and `size_t` values are `Nat`, reduced
  modulo `2^32` and `2^64` where the source computes in those types from values
  read from the file. The length of an array held in memory is below `2^63`, so
  `data_size * 2` and `pos` in `decode_adpcm` are left unreduced.
* A buffer is a `List Byte`; the packed `WaveAttributes` object is its 64 bytes, as
  `memcpy` leaves them on the little-endian host, and its fields are read from
  those bytes.
* What the environment decides (whether the output directory is created, whether
  an output stream opens) is a parameter of the embedding.
* A table lookup outside the table and a store outside the allocated output
  buffer have no defined result: the embedding returns `none` there.
-/

namespace Sdpdump

/-- One `uint8_t`. -/
abbrev Byte := Fin 256

/-! ## Machine arithmetic -/

/-- Reduction of a mathematical integer to the 32-bit two's complement `int`. -/
def wrapInt32 (x : Int) : Int := (x + 2147483648) % 4294967296 - 2147483648

/-- The conversion `static_cast<int16_t>(x)`. -/
def castInt16 (x : Int) : Int := (x + 32768) % 65536 - 32768

/-- The function `std::clamp(v, lo, hi)`: `(v < lo) ? lo : (hi < v) ? hi : v`. -/
def clamp (v lo hi : Int) : Int :=
  if v < lo then lo else if hi < v then hi else v

/-! ## Tables (lines 28-40) -/

/-- The table `STEP_TABLE[49]`. -/
def STEP_TABLE : List Int := [
  256, 272, 304, 336, 368, 400, 448, 496, 544, 592, 656,
  720, 800, 880, 960, 1056, 1168, 1280, 1408, 1552, 1712,
  1888, 2080, 2288, 2512, 2768, 3040, 3344, 3680, 4048,
  4464, 4912, 5392, 5936, 6528, 7184, 7904, 8704, 9568,
  10528, 11584, 12736, 14016, 15408, 16960, 18656, 20512,
  22576, 24832]

/-- The table `INDEX_TABLE[16]`. -/
def INDEX_TABLE : List Int := [
  -1, -1, -1, -1, 2, 4, 6, 8,
  -1, -1, -1, -1, 2, 4, 6, 8]

/-- The lookup `t[i]` with an `int` index; `none` outside the table. -/
def tableAt (t : List Int) (i : Int) : Option Int :=
  if 0 ≤ i then t[i.toNat]? else none

/-! ## `decode_adpcm` (lines 42-95) -/

/-- The locals of `decode_adpcm`. A slot of `out` is `none` until it is stored to.
`stores` is a ghost field, not a program variable: the index of every store into
`out`, in program order. -/
structure DecoderState where
  predictor_hi : Int
  predictor_lo : Int
  idx1 : Int
  idx2 : Int
  out : List (Option Int)
  pos : Nat
  stores : List Nat
deriving DecidableEq

/-- Lines 55-66, the block `// channel 1` on the high nibble. -/
def channel1_block (s : DecoderState) (hi_nibble : Nat) : Option DecoderState := do
  let step ← tableAt STEP_TABLE s.idx1
  let diff := wrapInt32 (wrapInt32 (wrapInt32
      ((if hi_nibble &&& 1 ≠ 0 then step >>> (2 : Nat) else 0)
        + (if hi_nibble &&& 2 ≠ 0 then step >>> (1 : Nat) else 0))
        + (if hi_nibble &&& 4 ≠ 0 then step else 0))
        + (step >>> (3 : Nat)))
  let diff := if hi_nibble &&& 8 ≠ 0 then wrapInt32 (-diff) else diff
  let predictor_hi := clamp (wrapInt32 (s.predictor_hi + diff)) (-32767) 32767
  let delta ← tableAt INDEX_TABLE hi_nibble
  let idx1 := clamp (wrapInt32 (s.idx1 + delta)) 0 48
  if s.pos < s.out.length then
    some { s with
      predictor_hi := predictor_hi
      idx1 := idx1
      out := s.out.set s.pos (some (castInt16 predictor_hi))
      pos := s.pos + 1
      stores := s.stores ++ [s.pos] }
  else none

/-- Lines 68-79, the branch `nChannels == 1` on the low nibble. -/
def mono_low_block (s : DecoderState) (lo_nibble : Nat) : Option DecoderState := do
  let step ← tableAt STEP_TABLE s.idx1
  let diff := wrapInt32 (wrapInt32 (wrapInt32
      ((if lo_nibble &&& 1 ≠ 0 then step >>> (2 : Nat) else 0)
        + (if lo_nibble &&& 2 ≠ 0 then step >>> (1 : Nat) else 0))
        + (if lo_nibble &&& 4 ≠ 0 then step else 0))
        + (step >>> (3 : Nat)))
  let diff := if lo_nibble &&& 8 ≠ 0 then wrapInt32 (-diff) else diff
  let predictor_hi := clamp (wrapInt32 (s.predictor_hi + diff)) (-32767) 32767
  let delta ← tableAt INDEX_TABLE lo_nibble
  let idx1 := clamp (wrapInt32 (s.idx1 + delta)) 0 48
  if s.pos < s.out.length then
    some { s with
      predictor_hi := predictor_hi
      idx1 := idx1
      out := s.out.set s.pos (some (castInt16 predictor_hi))
      pos := s.pos + 1
      stores := s.stores ++ [s.pos] }
  else none

/-- Lines 79-90, the `else` branch on the low nibble. -/
def stereo_low_block (s : DecoderState) (lo_nibble : Nat) : Option DecoderState := do
  let step ← tableAt STEP_TABLE s.idx2
  let diff := wrapInt32 (wrapInt32 (wrapInt32
      ((if lo_nibble &&& 1 ≠ 0 then step >>> (2 : Nat) else 0)
        + (if lo_nibble &&& 2 ≠ 0 then step >>> (1 : Nat) else 0))
        + (if lo_nibble &&& 4 ≠ 0 then step else 0))
        + (step >>> (3 : Nat)))
  let diff := if lo_nibble &&& 8 ≠ 0 then wrapInt32 (-diff) else diff
  let predictor_lo := clamp (wrapInt32 (s.predictor_lo + diff)) (-32767) 32767
  let delta ← tableAt INDEX_TABLE lo_nibble
  let idx2 := clamp (wrapInt32 (s.idx2 + delta)) 0 48
  if s.pos < s.out.length then
    some { s with
      predictor_lo := predictor_lo
      idx2 := idx2
      out := s.out.set s.pos (some (castInt16 predictor_lo))
      pos := s.pos + 1
      stores := s.stores ++ [s.pos] }
  else none

/-- Lines 51-90, one iteration of the loop on the byte `b`. -/
def loop_body (nChannels : Int) (s : DecoderState) (b : Byte) : Option DecoderState := do
  let hi_nibble : Nat := b.val >>> 4
  let lo_nibble : Nat := b.val &&& 0x0F
  let s ← channel1_block s hi_nibble
  if nChannels = 1 then mono_low_block s lo_nibble
  else stereo_low_block s lo_nibble

/-- Lines 50-91, the loop over the remaining bytes. -/
def decode_loop (nChannels : Int) : DecoderState → List Byte → Option DecoderState
  | s, [] => some s
  | s, b :: rest => (loop_body nChannels s b).bind fun s1 => decode_loop nChannels s1 rest

/-- Lines 43-48, the locals when the loop is entered: `out` has `data_size * 2`
slots, none of them stored to. -/
def initial_state (data_size : Nat) : DecoderState :=
  { predictor_hi := 0, predictor_lo := 0, idx1 := 0, idx2 := 0
    out := List.replicate (data_size * 2) none, pos := 0, stores := [] }

/-- Lines 43-91, the locals when the loop is left. -/
def decode_adpcm_locals (audio_data : List Byte) (nChannels : Int) : Option DecoderState :=
  decode_loop nChannels (initial_state audio_data.length) audio_data

/-- The function `decode_adpcm`: the returned buffer `out` and `out_count`. -/
def decode_adpcm (audio_data : List Byte) (nChannels : Int) :
    Option (List (Option Int) × Nat) :=
  (decode_adpcm_locals audio_data nChannels).map fun s => (s.out, s.pos)

/-! ## Unsigned machine integers and their bytes -/

/-- Reduction to `uint32_t`. -/
def wrapU32 (x : Nat) : Nat := x % 4294967296

/-- Reduction to the 64-bit `size_t`. -/
def wrapU64 (x : Nat) : Nat := x % 18446744073709551616

/-- The low byte of `x`. -/
def byteOf (x : Nat) : Byte := ⟨x % 256, Nat.mod_lt x (by decide)⟩

/-- The two bytes of a 16-bit object on the little-endian host. -/
def bytes_u16 (x : Nat) : List Byte := [byteOf x, byteOf (x / 256)]

/-- The four bytes of a 32-bit object on the little-endian host. -/
def bytes_u32 (x : Nat) : List Byte :=
  [byteOf x, byteOf (x / 256), byteOf (x / 65536), byteOf (x / 16777216)]

/-- The unsigned value whose bytes, low byte first, are `bs`. -/
def value_le : List Byte → Nat
  | [] => 0
  | b :: bs => b.val + 256 * value_le bs

/-- The call `std::memcpy(dst, buf + offset, n)`: the `n` bytes copied, `none` when
the source range leaves the buffer. -/
def memcpy_from (buf : List Byte) (offset n : Nat) : Option (List Byte) :=
  if offset + n ≤ buf.length then some ((buf.drop offset).take n) else none

/-- A `uint32_t` read from `buf + offset` by `memcpy`. -/
def load_u32 (buf : List Byte) (offset : Nat) : Option Nat :=
  (memcpy_from buf offset 4).map value_le

/-! ## `write_wav` (lines 97-129) -/

/-- The bytes of the tag `"RIFF"`. -/
def tag_RIFF : List Byte := [0x52, 0x49, 0x46, 0x46]

/-- The bytes of the tag `"WAVE"`. -/
def tag_WAVE : List Byte := [0x57, 0x41, 0x56, 0x45]

/-- The bytes of the tag `"fmt "`. -/
def tag_fmt : List Byte := [0x66, 0x6D, 0x74, 0x20]

/-- The bytes of the tag `"data"`. -/
def tag_data : List Byte := [0x64, 0x61, 0x74, 0x61]

/-- The memory of an `int16_t` array, two bytes per sample, low byte first. -/
def sample_bytes : List Int → List Byte
  | [] => []
  | v :: vs => bytes_u16 (v % 65536).toNat ++ sample_bytes vs

/-- Lines 101-126: the bytes `write_wav` writes to the opened stream. `samples`
is the array with its `sample_count` elements. -/
def write_wav_stream (samples : List Int) (nChannels : Int) (sampleRate : Nat) : List Byte :=
  let sample_count : Nat := samples.length
  let audioFormat : Nat := 1
  let bitsPerSample : Nat := 16
  let blockAlign : Nat := ((wrapInt32 (nChannels * bitsPerSample)).tdiv 8 % 65536).toNat
  let byteRate : Nat := wrapU32 (sampleRate * blockAlign)
  let dataChunkSize : Nat := wrapU32 (wrapU64 (sample_count * 2))
  let fmtChunkSize : Nat := 16
  let riffChunkSize : Nat :=
    wrapU32 (wrapU32 (4 + wrapU32 (8 + fmtChunkSize)) + wrapU32 (8 + dataChunkSize))
  tag_RIFF ++ (bytes_u32 riffChunkSize ++ (tag_WAVE
    ++ (tag_fmt ++ (bytes_u32 fmtChunkSize ++ (bytes_u16 audioFormat
    ++ (bytes_u16 (nChannels % 65536).toNat ++ (bytes_u32 sampleRate ++ (bytes_u32 byteRate
    ++ (bytes_u16 blockAlign ++ (bytes_u16 bitsPerSample
    ++ (tag_data ++ (bytes_u32 dataChunkSize
    ++ (if sample_count > 0 then (sample_bytes samples).take dataChunkSize else [])))))))))))))

/-- The function `write_wav`: `none` is the return value `false` (the stream did
not open), `some` carries the bytes written before `true` is returned. -/
def write_wav (opened : Bool) (samples : List Int) (nChannels : Int) (sampleRate : Nat) :
    Option (List Byte) :=
  if opened then some (write_wav_stream samples nChannels sampleRate) else none

/-! ## The container reader (lines 159-194) -/

/-- The 64 bytes of one packed `WaveAttributes` object. -/
abbrev WaveAttributes := List Byte

/-- How the reader can fail; `outOfBounds` is a `memcpy` from outside `fileBuf`. -/
inductive ReadFailure where
  | tooSmall
  | truncated
  | outOfBounds
deriving DecidableEq

/-- Lines 190-194: the iterations `i, i + 1, ...` of the loop that fills `entries`,
`remaining` of them. -/
def read_entries (fileBuf : List Byte) : Nat → Nat → Except ReadFailure (List WaveAttributes)
  | _, 0 => .ok []
  | i, remaining + 1 =>
    let offset := wrapU64 (64 + wrapU64 (i * 64))
    match memcpy_from fileBuf offset 64 with
    | none => .error .outOfBounds
    | some e =>
      match read_entries fileBuf (i + 1) remaining with
      | .error f => .error f
      | .ok rest => .ok (e.set (36 + 27) 0 :: rest)

/-- Lines 159-194: the size check, the entry count, the table check and the
records. `fileBuf` is the whole file, `fileSize` its length. -/
def read_container (fileBuf : List Byte) : Except ReadFailure (List WaveAttributes) :=
  let fileSize := fileBuf.length
  if fileSize < 64 then .error .tooSmall
  else
    match load_u32 fileBuf 0 with
    | none => .error .outOfBounds
    | some num_wavs =>
      let expectedAttrBytes := wrapU64 (num_wavs * 64)
      if fileSize < wrapU64 (64 + expectedAttrBytes) then .error .truncated
      else read_entries fileBuf 0 num_wavs

/-! ## The payload locator (lines 196, 217-222) -/

/-- Line 196: `audioDataOffset = headerSize + expectedAttrBytes`. -/
def audioDataOffset (num_wavs : Nat) : Nat := wrapU64 (64 + wrapU64 (num_wavs * 64))

/-- Line 217: `wavStart = audioDataOffset + relOffset`. -/
def wavStart (num_wavs relOffset : Nat) : Nat := wrapU64 (audioDataOffset num_wavs + relOffset)

/-- Line 218: `wavEnd = wavStart + wavSize`. -/
def wavEnd (num_wavs relOffset wavSize : Nat) : Nat :=
  wrapU64 (wavStart num_wavs relOffset + wavSize)

/-- Lines 217-224: the range `(wavStart, wavEnd)` of an entry, `none` when the
entry is rejected by `wavEnd > fileSize`. -/
def payload_range (fileSize num_wavs relOffset wavSize : Nat) : Option (Nat × Nat) :=
  if wavEnd num_wavs relOffset wavSize > fileSize then none
  else some (wavStart num_wavs relOffset, wavEnd num_wavs relOffset wavSize)

/-! ## The export loop of `main` (lines 207-258) -/

/-- The field `flags` (offset 8 of the packed object). -/
def WaveAttributes.flags (e : WaveAttributes) : Nat := value_le ((e.drop 8).take 4)

/-- The field `offset` (offset 20 of the packed object). -/
def WaveAttributes.offset (e : WaveAttributes) : Nat := value_le ((e.drop 20).take 4)

/-- The field `wavSize` (offset 24 of the packed object). -/
def WaveAttributes.wavSize (e : WaveAttributes) : Nat := value_le ((e.drop 24).take 4)

/-- The field `bitrate` (offset 32 of the packed object). -/
def WaveAttributes.bitrate (e : WaveAttributes) : Nat := value_le ((e.drop 32).take 4)

/-- The field `wavName[28]` (offset 36 of the packed object). -/
def WaveAttributes.wavName (e : WaveAttributes) : List Byte := (e.drop 36).take 28

/-- The conversion of a `char` array to `std::string`: the bytes before the first
zero byte; `none` when the array holds no zero byte and the read leaves it. -/
def c_string : List Byte → Option (List Byte)
  | [] => none
  | b :: rest => if b = 0 then some [] else (c_string rest).map fun name => b :: name

/-- The bytes of `"wave_"`. -/
def str_wave : List Byte := [0x77, 0x61, 0x76, 0x65, 0x5F]

/-- The bytes of `".wav"`. -/
def str_dot_wav : List Byte := [0x2E, 0x77, 0x61, 0x76]

/-- The call `std::to_string(i)`: the decimal digits of `i` in ASCII. -/
def to_string_u32 (i : Nat) : List Byte := (Nat.toDigits 10 i).map fun c => byteOf c.toNat

/-- Lines 209-210: `name + ".wav"`, where `name` is `e.wavName` if `e.wavName[0]`
is non-zero and `"wave_" + std::to_string(i)` otherwise. -/
def output_name (e : WaveAttributes) (i : Nat) : Option (List Byte) :=
  match (WaveAttributes.wavName e)[0]? with
  | none => none
  | some c0 =>
    (if c0 ≠ 0 then c_string (WaveAttributes.wavName e)
      else some (str_wave ++ to_string_u32 i)).map fun name => name ++ str_dot_wav

/-- The `int16_t` array that `memcpy` fills from a byte range, low byte first. -/
def samples_of_bytes : List Byte → List Int
  | lo :: hi :: rest => castInt16 (lo.val + 256 * hi.val) :: samples_of_bytes rest
  | _ => []

/-- The values read from buffer slots; `none` when a slot was never stored to. -/
def read_slots : List (Option Int) → Option (List Int)
  | [] => some []
  | none :: _ => none
  | some v :: rest => (read_slots rest).map fun vs => v :: vs

/-- What the loop does with one entry: it skips it (lines 219-222 or 238-241), or
it calls `write_wav` with `samples`, `nChannels` and `sampleRate` for the file
`outName`; `decoded` tells the two calls apart and `file` is what `write_wav`
wrote, `none` when it returned `false`. -/
inductive EntryOutcome where
  | invalidRange
  | oddPcmSize
  | exported (outName : List Byte) (decoded : Bool) (samples : List Int) (nChannels : Int)
      (sampleRate : Nat) (file : Option (List Byte))
deriving DecidableEq

/-- Lines 208-251, one iteration of the export loop on entry `e` of index `i`;
`opened` tells whether the output stream of this entry opens. The result is
`none` when the iteration reads outside an array. -/
def process_entry (fileBuf : List Byte) (num_wavs : Nat) (opened : Bool) (i : Nat)
    (e : WaveAttributes) : Option EntryOutcome :=
  match output_name e i with
  | none => none
  | some outName =>
    let relOffset := WaveAttributes.offset e
    let wavSize := WaveAttributes.wavSize e
    let flags := WaveAttributes.flags e
    let bitrate := WaveAttributes.bitrate e
    match payload_range fileBuf.length num_wavs relOffset wavSize with
    | none => some .invalidRange
    | some (wavStart, _) =>
      let nChannels : Int := if flags &&& 1 ≠ 0 then 2 else 1
      let compressed : Bool := flags &&& 4 ≠ 0
      if compressed then
        match memcpy_from fileBuf wavStart wavSize with
        | none => none
        | some wavData =>
          match decode_adpcm wavData nChannels with
          | none => none
          | some (pcm, pcmCount) =>
            match read_slots (pcm.take pcmCount) with
            | none => none
            | some samples =>
              some (.exported outName true samples nChannels bitrate
                (write_wav opened samples nChannels bitrate))
      else if wavSize % 2 ≠ 0 then some .oddPcmSize
      else
        match memcpy_from fileBuf wavStart wavSize with
        | none => none
        | some wavData =>
          let samples := samples_of_bytes wavData
          some (.exported outName false samples nChannels bitrate
            (write_wav opened samples nChannels bitrate))

/-- Lines 207-252: the iterations `i, i + 1, ...` of the export loop over the
remaining entries; `opened j` tells whether the output stream of entry `j` opens. -/
def export_entries (fileBuf : List Byte) (num_wavs : Nat) (opened : Nat → Bool) :
    Nat → List WaveAttributes → Option (List EntryOutcome)
  | _, [] => some []
  | i, e :: rest =>
    match process_entry fileBuf num_wavs (opened i) i e with
    | none => none
    | some o => (export_entries fileBuf num_wavs opened (i + 1) rest).map fun os => o :: os

/-- Lines 207-258: the run once the container is validated and the output
directory exists: the outcome of every entry and the exit status. -/
def export_run (fileBuf : List Byte) (num_wavs : Nat) (opened : Nat → Bool)
    (entries : List WaveAttributes) : Option (List EntryOutcome × Int) :=
  (export_entries fileBuf num_wavs opened 0 entries).map fun os => (os, 0)

/-- Lines 159-258 of `main`, from the loaded file on: the exit status and the
outcome of every entry processed. `dirCreated` tells whether `create_directories`
succeeds. -/
def main_run (fileBuf : List Byte) (dirCreated : Bool) (opened : Nat → Bool) :
    Option (Int × List EntryOutcome) :=
  match read_container fileBuf with
  | .error .outOfBounds => none
  | .error _ => some (1, [])
  | .ok entries =>
    match load_u32 fileBuf 0 with
    | none => none
    | some num_wavs =>
      if dirCreated then
        (export_run fileBuf num_wavs opened entries).map fun r => (r.2, r.1)
      else some (1, [])

/-- The byte `b ^ 0x88`: the sign bit of both nibbles flipped. -/
def flip_signs (b : Byte) : Byte := byteOf (b.val ^^^ 0x88)

/-- The call of `write_wav` an outcome stands for, without what the call wrote. -/
def EntryOutcome.request : EntryOutcome → EntryOutcome
  | .exported outName decoded samples nChannels sampleRate _ =>
    .exported outName decoded samples nChannels sampleRate none
  | o => o

/-- A record as the reader stores it: 64 bytes, the last byte of `wavName` zero. -/
def RecordOk (r : WaveAttributes) : Prop := r.length = 64 ∧ r[63]? = some 0

/-- The 44-byte header as the specification lays it out: `RIFF`, total size,
`WAVE`, `fmt `, format-block size 16, encoding 1, channel count, sample rate, byte
rate, block alignment, bits per sample 16, `data`, data size. -/
def spec_wav_header (total channels rate byteRate blockAlign dataSize : Nat) : List Byte :=
  tag_RIFF ++ bytes_u32 total ++ tag_WAVE ++ tag_fmt ++ bytes_u32 16 ++ bytes_u16 1
    ++ bytes_u16 channels ++ bytes_u32 rate ++ bytes_u32 byteRate ++ bytes_u16 blockAlign
    ++ bytes_u16 16 ++ tag_data ++ bytes_u32 dataSize

/-! ## The per-nibble step as the specification words it -/

/-- The magnitude
`(step >> 3) + (bit0 ? step>>2 : 0) + (bit1 ? step>>1 : 0) + (bit2 ? step : 0)`. -/
def specMagnitude (step : Int) (n : Nat) : Int :=
  (step >>> (3 : Nat)) + (if n &&& 1 ≠ 0 then step >>> (2 : Nat) else 0)
    + (if n &&& 2 ≠ 0 then step >>> (1 : Nat) else 0) + (if n &&& 4 ≠ 0 then step else 0)

/-- The specification's per-nibble step on a channel state `(predictor, stepIndex)`,
in unbounded integers: the new state; the emitted sample is its first component. -/
def specStep (st : Int × Int) (n : Nat) : Int × Int :=
  let step := STEP_TABLE.getD st.2.toNat 0
  let magnitude := specMagnitude step n
  let d := if n &&& 8 ≠ 0 then -magnitude else magnitude
  (clamp (st.1 + d) (-32767) 32767, clamp (st.2 + INDEX_TABLE.getD n 0) 0 48)

/-- The samples one channel decoder emits over a nibble sequence, from state `st`. -/
def runChannel : Int × Int → List Nat → List Int
  | _, [] => []
  | st, n :: ns => (specStep st n).1 :: runChannel (specStep st n) ns

/-- The state of one channel decoder after a nibble sequence. -/
def runState (st : Int × Int) (ns : List Nat) : Int × Int := ns.foldl specStep st

/-- The nibble stream `b[0]>>4, b[0]&15, b[1]>>4, b[1]&15, ...`. -/
def nibbleStream : List Byte → List Nat
  | [] => []
  | b :: rest => (b.val >>> 4) :: (b.val &&& 15) :: nibbleStream rest

/-- The high nibbles `b[0]>>4, b[1]>>4, ...`. -/
def highNibbles (bs : List Byte) : List Nat := bs.map fun b => b.val >>> 4

/-- The low nibbles `b[0]&15, b[1]&15, ...`. -/
def lowNibbles (bs : List Byte) : List Nat := bs.map fun b => b.val &&& 15

/-- Two sample sequences interleaved, the first one leading. -/
def interleave : List Int → List Int → List Int
  | x :: xs, y :: ys => x :: y :: interleave xs ys
  | _, _ => []


/-- The buffer after the values `vs` are stored at `pos`, `pos + 1`, ... in turn. -/
def storeAll : List (Option Int) → Nat → List Int → List (Option Int)
  | out, _, [] => out
  | out, pos, v :: vs => storeAll (out.set pos (some v)) (pos + 1) vs

/-- The mono sample sequence: one decoder over the flattened nibble stream. -/
def monoSamples (bs : List Byte) : List Int := runChannel (0, 0) (nibbleStream bs)

/-- The stereo sample sequence: two decoders, interleaved. -/
def stereoSamples (bs : List Byte) : List Int :=
  interleave (runChannel (0, 0) (highNibbles bs)) (runChannel (0, 0) (lowNibbles bs))

/-- A channel state `(predictor, stepIndex)` within its ranges. -/
def ChanOk (st : Int × Int) : Prop :=
  -32767 ≤ st.1 ∧ st.1 ≤ 32767 ∧ 0 ≤ st.2 ∧ st.2 ≤ 48

/-- Both step indices of a decoder state are valid indices of `STEP_TABLE`. -/
def IndicesInRange (s : DecoderState) : Prop :=
  0 ≤ s.idx1 ∧ s.idx1 ≤ 48 ∧ 0 ≤ s.idx2 ∧ s.idx2 ≤ 48

/-! ## Arithmetic facts -/

theorem wrapInt32_of_range (x : Int) (h1 : -2147483648 ≤ x) (h2 : x < 2147483648) :
    wrapInt32 x = x := by
  unfold wrapInt32; omega

theorem castInt16_of_range (x : Int) (h1 : -32768 ≤ x) (h2 : x < 32768) :
    castInt16 x = x := by
  unfold castInt16; omega

theorem clamp_range (v lo hi : Int) (h : lo ≤ hi) :
    lo ≤ clamp v lo hi ∧ clamp v lo hi ≤ hi := by
  unfold clamp; split_ifs <;> omega

theorem tableAt_step (i : Int) (h0 : 0 ≤ i) (h1 : i ≤ 48) :
    ∃ step, tableAt STEP_TABLE i = some step ∧ STEP_TABLE.getD i.toNat 0 = step
      ∧ 256 ≤ step ∧ step ≤ 24832 := by
  obtain ⟨k, rfl⟩ := Int.eq_ofNat_of_zero_le h0
  have hk : k < 49 := by omega
  interval_cases k <;> exact ⟨_, rfl, rfl, by decide, by decide⟩

theorem tableAt_index (n : Nat) (h : n < 16) :
    ∃ d, tableAt INDEX_TABLE (n : Int) = some d ∧ INDEX_TABLE.getD n 0 = d
      ∧ -1 ≤ d ∧ d ≤ 8 := by
  interval_cases n <;> exact ⟨_, rfl, rfl, by decide, by decide⟩

/-- The `diff` the three blocks compute before the sign is applied is the
specification's magnitude, and none of its `int` additions wraps. -/
theorem code_diff_eq (step : Int) (n : Nat) (h0 : 0 ≤ step) (h1 : step ≤ 24832) :
    wrapInt32 (wrapInt32 (wrapInt32
      ((if n &&& 1 ≠ 0 then step >>> (2 : Nat) else 0)
        + (if n &&& 2 ≠ 0 then step >>> (1 : Nat) else 0))
        + (if n &&& 4 ≠ 0 then step else 0))
        + (step >>> (3 : Nat))) = specMagnitude step n
    ∧ 0 ≤ specMagnitude step n ∧ specMagnitude step n ≤ 46560 := by
  unfold specMagnitude
  simp only [Int.shiftRight_eq_div_pow]
  norm_num only
  split_ifs <;> (unfold wrapInt32; omega)

/-- The signed difference and the predictor update of the blocks, against the
specification's formula. -/
theorem code_predictor_eq (p step : Int) (n : Nat) (hp0 : -32767 ≤ p) (hp1 : p ≤ 32767)
    (h0 : 0 ≤ step) (h1 : step ≤ 24832) :
    clamp (wrapInt32 (p + (if n &&& 8 ≠ 0 then
        wrapInt32 (-(wrapInt32 (wrapInt32 (wrapInt32
          ((if n &&& 1 ≠ 0 then step >>> (2 : Nat) else 0)
            + (if n &&& 2 ≠ 0 then step >>> (1 : Nat) else 0))
            + (if n &&& 4 ≠ 0 then step else 0))
            + (step >>> (3 : Nat)))))
      else wrapInt32 (wrapInt32 (wrapInt32
          ((if n &&& 1 ≠ 0 then step >>> (2 : Nat) else 0)
            + (if n &&& 2 ≠ 0 then step >>> (1 : Nat) else 0))
            + (if n &&& 4 ≠ 0 then step else 0))
            + (step >>> (3 : Nat)))))) (-32767) 32767
      = clamp (p + (if n &&& 8 ≠ 0 then -specMagnitude step n else specMagnitude step n))
          (-32767) 32767 := by
  obtain ⟨e, m0, m1⟩ := code_diff_eq step n h0 h1
  rw [e]
  by_cases h8 : n &&& 8 ≠ 0
  · rw [if_pos h8, if_pos h8, wrapInt32_of_range (-specMagnitude step n) (by omega) (by omega),
      wrapInt32_of_range _ (by omega) (by omega)]
  · rw [if_neg h8, if_neg h8, wrapInt32_of_range _ (by omega) (by omega)]

theorem code_index_eq (i d : Int) (h0 : 0 ≤ i) (h1 : i ≤ 48) (d0 : -1 ≤ d) (d1 : d ≤ 8) :
    clamp (wrapInt32 (i + d)) 0 48 = clamp (i + d) 0 48 := by
  rw [wrapInt32_of_range _ (by omega) (by omega)]

/-- The block on the high nibble performs the specification's step on
`(predictor_hi, idx1)` and stores the new predictor at `pos`. -/
theorem channel1_block_eq (s : DecoderState) (n : Nat) (hn : n < 16)
    (hp0 : -32767 ≤ s.predictor_hi) (hp1 : s.predictor_hi ≤ 32767)
    (hi0 : 0 ≤ s.idx1) (hi1 : s.idx1 ≤ 48) (hpos : s.pos < s.out.length) :
    channel1_block s n = some { s with
      predictor_hi := (specStep (s.predictor_hi, s.idx1) n).1
      idx1 := (specStep (s.predictor_hi, s.idx1) n).2
      out := s.out.set s.pos (some (specStep (s.predictor_hi, s.idx1) n).1)
      pos := s.pos + 1
      stores := s.stores ++ [s.pos] } := by
  obtain ⟨step, hs, hs2, s0, s1⟩ := tableAt_step s.idx1 hi0 hi1
  obtain ⟨d, hd, hd2, d0, d1⟩ := tableAt_index n hn
  have hc := clamp_range (s.predictor_hi +
    (if n &&& 8 ≠ 0 then -specMagnitude step n else specMagnitude step n)) (-32767) 32767
    (by decide)
  unfold channel1_block specStep
  simp only [hs, hd, hs2, hd2, Option.bind_eq_bind, Option.some_bind, if_pos hpos]
  rw [code_predictor_eq s.predictor_hi step n hp0 hp1 (by omega) s1,
    code_index_eq s.idx1 d hi0 hi1 d0 d1, castInt16_of_range _ (by omega) (by omega)]

/-- The `nChannels == 1` block performs the specification's step on
`(predictor_hi, idx1)`, the state the high nibble has already updated. -/
theorem mono_low_block_eq (s : DecoderState) (n : Nat) (hn : n < 16)
    (hp0 : -32767 ≤ s.predictor_hi) (hp1 : s.predictor_hi ≤ 32767)
    (hi0 : 0 ≤ s.idx1) (hi1 : s.idx1 ≤ 48) (hpos : s.pos < s.out.length) :
    mono_low_block s n = some { s with
      predictor_hi := (specStep (s.predictor_hi, s.idx1) n).1
      idx1 := (specStep (s.predictor_hi, s.idx1) n).2
      out := s.out.set s.pos (some (specStep (s.predictor_hi, s.idx1) n).1)
      pos := s.pos + 1
      stores := s.stores ++ [s.pos] } := by
  obtain ⟨step, hs, hs2, s0, s1⟩ := tableAt_step s.idx1 hi0 hi1
  obtain ⟨d, hd, hd2, d0, d1⟩ := tableAt_index n hn
  have hc := clamp_range (s.predictor_hi +
    (if n &&& 8 ≠ 0 then -specMagnitude step n else specMagnitude step n)) (-32767) 32767
    (by decide)
  unfold mono_low_block specStep
  simp only [hs, hd, hs2, hd2, Option.bind_eq_bind, Option.some_bind, if_pos hpos]
  rw [code_predictor_eq s.predictor_hi step n hp0 hp1 (by omega) s1,
    code_index_eq s.idx1 d hi0 hi1 d0 d1, castInt16_of_range _ (by omega) (by omega)]

/-- The `else` block performs the specification's step on `(predictor_lo, idx2)`. -/
theorem stereo_low_block_eq (s : DecoderState) (n : Nat) (hn : n < 16)
    (hp0 : -32767 ≤ s.predictor_lo) (hp1 : s.predictor_lo ≤ 32767)
    (hi0 : 0 ≤ s.idx2) (hi1 : s.idx2 ≤ 48) (hpos : s.pos < s.out.length) :
    stereo_low_block s n = some { s with
      predictor_lo := (specStep (s.predictor_lo, s.idx2) n).1
      idx2 := (specStep (s.predictor_lo, s.idx2) n).2
      out := s.out.set s.pos (some (specStep (s.predictor_lo, s.idx2) n).1)
      pos := s.pos + 1
      stores := s.stores ++ [s.pos] } := by
  obtain ⟨step, hs, hs2, s0, s1⟩ := tableAt_step s.idx2 hi0 hi1
  obtain ⟨d, hd, hd2, d0, d1⟩ := tableAt_index n hn
  have hc := clamp_range (s.predictor_lo +
    (if n &&& 8 ≠ 0 then -specMagnitude step n else specMagnitude step n)) (-32767) 32767
    (by decide)
  unfold stereo_low_block specStep
  simp only [hs, hd, hs2, hd2, Option.bind_eq_bind, Option.some_bind, if_pos hpos]
  rw [code_predictor_eq s.predictor_lo step n hp0 hp1 (by omega) s1,
    code_index_eq s.idx2 d hi0 hi1 d0 d1, castInt16_of_range _ (by omega) (by omega)]

/-! ## Nibbles and channel states -/

theorem hi_nibble_lt (b : Byte) : b.val >>> 4 < 16 := by
  have := b.isLt
  rw [Nat.shiftRight_eq_div_pow]; omega

theorem lo_nibble_lt (b : Byte) : b.val &&& 15 < 16 :=
  Nat.lt_succ_of_le Nat.and_le_right

theorem specStep_ok (st : Int × Int) (n : Nat) : ChanOk (specStep st n) := by
  have h1 := clamp_range (st.1 + (if n &&& 8 ≠ 0 then
    -specMagnitude (STEP_TABLE.getD st.2.toNat 0) n
    else specMagnitude (STEP_TABLE.getD st.2.toNat 0) n)) (-32767) 32767 (by decide)
  have h2 := clamp_range (st.2 + INDEX_TABLE.getD n 0) 0 48 (by decide)
  exact ⟨h1.1, h1.2, h2.1, h2.2⟩

theorem runState_ok (ns : List Nat) : ∀ st, ChanOk st → ChanOk (runState st ns) := by
  induction ns with
  | nil => intro st h; exact h
  | cons n ns ih => intro st _; exact ih _ (specStep_ok st n)

theorem chanOk_fresh : ChanOk (0, 0) :=
  ⟨by decide, by decide, by decide, by decide⟩

/-! ## One loop iteration -/

theorem loop_body_mono (s : DecoderState) (b : Byte)
    (h1 : ChanOk (s.predictor_hi, s.idx1)) (hpos : s.pos + 1 < s.out.length) :
    loop_body 1 s b = some
      { predictor_hi :=
          (specStep (specStep (s.predictor_hi, s.idx1) (b.val >>> 4)) (b.val &&& 15)).1
        predictor_lo := s.predictor_lo
        idx1 := (specStep (specStep (s.predictor_hi, s.idx1) (b.val >>> 4)) (b.val &&& 15)).2
        idx2 := s.idx2
        out := (s.out.set s.pos (some (specStep (s.predictor_hi, s.idx1) (b.val >>> 4)).1)).set
          (s.pos + 1)
          (some (specStep (specStep (s.predictor_hi, s.idx1) (b.val >>> 4)) (b.val &&& 15)).1)
        pos := s.pos + 1 + 1
        stores := s.stores ++ [s.pos] ++ [s.pos + 1] } := by
  obtain ⟨a0, a1, a2, a3⟩ := h1
  obtain ⟨c0, c1, c2, c3⟩ := specStep_ok (s.predictor_hi, s.idx1) (b.val >>> 4)
  unfold loop_body
  simp only [Option.bind_eq_bind]
  rw [channel1_block_eq s _ (hi_nibble_lt b) a0 a1 a2 a3 (by omega)]
  simp only [Option.some_bind, if_true]
  rw [mono_low_block_eq]
  all_goals first
    | exact lo_nibble_lt b | exact c0 | exact c1 | exact c2 | exact c3
    | (simp only [List.length_set]; omega)

theorem loop_body_stereo (c : Int) (hc : c ≠ 1) (s : DecoderState) (b : Byte)
    (h1 : ChanOk (s.predictor_hi, s.idx1)) (h2 : ChanOk (s.predictor_lo, s.idx2))
    (hpos : s.pos + 1 < s.out.length) :
    loop_body c s b = some
      { predictor_hi := (specStep (s.predictor_hi, s.idx1) (b.val >>> 4)).1
        predictor_lo := (specStep (s.predictor_lo, s.idx2) (b.val &&& 15)).1
        idx1 := (specStep (s.predictor_hi, s.idx1) (b.val >>> 4)).2
        idx2 := (specStep (s.predictor_lo, s.idx2) (b.val &&& 15)).2
        out := (s.out.set s.pos (some (specStep (s.predictor_hi, s.idx1) (b.val >>> 4)).1)).set
          (s.pos + 1) (some (specStep (s.predictor_lo, s.idx2) (b.val &&& 15)).1)
        pos := s.pos + 1 + 1
        stores := s.stores ++ [s.pos] ++ [s.pos + 1] } := by
  obtain ⟨a0, a1, a2, a3⟩ := h1
  obtain ⟨c0, c1, c2, c3⟩ := h2
  unfold loop_body
  simp only [Option.bind_eq_bind]
  rw [channel1_block_eq s _ (hi_nibble_lt b) a0 a1 a2 a3 (by omega)]
  simp only [Option.some_bind, if_neg hc]
  rw [stereo_low_block_eq]
  all_goals first
    | exact lo_nibble_lt b | exact c0 | exact c1 | exact c2 | exact c3
    | (simp only [List.length_set]; omega)

/-! ## The whole loop -/

theorem range_two_step (p n : Nat) :
    List.range' p (2 * (n + 1)) = p :: (p + 1) :: List.range' (p + 1 + 1) (2 * n) := by
  have h : 2 * (n + 1) = 2 * n + 1 + 1 := by omega
  rw [h, List.range'_succ, List.range'_succ]

/-- The loop in the mono case, from any state whose channel-1 pair is in range:
one channel decoder over the flattened nibble stream; `predictor_lo` and `idx2`
are neither read nor written. -/
theorem decode_loop_mono (bs : List Byte) : ∀ s : DecoderState,
    ChanOk (s.predictor_hi, s.idx1) → s.pos + 2 * bs.length ≤ s.out.length →
    decode_loop 1 s bs = some
      { predictor_hi := (runState (s.predictor_hi, s.idx1) (nibbleStream bs)).1
        predictor_lo := s.predictor_lo
        idx1 := (runState (s.predictor_hi, s.idx1) (nibbleStream bs)).2
        idx2 := s.idx2
        out := storeAll s.out s.pos (runChannel (s.predictor_hi, s.idx1) (nibbleStream bs))
        pos := s.pos + 2 * bs.length
        stores := s.stores ++ List.range' s.pos (2 * bs.length) } := by
  induction bs with
  | nil =>
    intro s _ _
    simp [decode_loop, runState, nibbleStream, runChannel, storeAll]
  | cons b rest ih =>
    intro s h1 hlen
    simp only [List.length_cons] at hlen
    rw [decode_loop, loop_body_mono s b h1 (by omega), Option.some_bind]
    rw [ih _ (specStep_ok _ _) (by simp only [List.length_set]; omega)]
    simp only [runState, nibbleStream, runChannel, storeAll, List.foldl_cons, List.length_cons,
      range_two_step, List.append_assoc, List.singleton_append]
    congr 2
    omega

/-- The loop in the stereo case (any `nChannels` other than 1), from any state
whose two channel pairs are in range: the high nibbles drive `(predictor_hi, idx1)`,
the low nibbles drive `(predictor_lo, idx2)`, and the samples alternate. -/
theorem decode_loop_stereo (c : Int) (hc : c ≠ 1) (bs : List Byte) : ∀ s : DecoderState,
    ChanOk (s.predictor_hi, s.idx1) → ChanOk (s.predictor_lo, s.idx2) →
    s.pos + 2 * bs.length ≤ s.out.length →
    decode_loop c s bs = some
      { predictor_hi := (runState (s.predictor_hi, s.idx1) (highNibbles bs)).1
        predictor_lo := (runState (s.predictor_lo, s.idx2) (lowNibbles bs)).1
        idx1 := (runState (s.predictor_hi, s.idx1) (highNibbles bs)).2
        idx2 := (runState (s.predictor_lo, s.idx2) (lowNibbles bs)).2
        out := storeAll s.out s.pos (interleave
          (runChannel (s.predictor_hi, s.idx1) (highNibbles bs))
          (runChannel (s.predictor_lo, s.idx2) (lowNibbles bs)))
        pos := s.pos + 2 * bs.length
        stores := s.stores ++ List.range' s.pos (2 * bs.length) } := by
  induction bs with
  | nil =>
    intro s _ _ _
    simp [decode_loop, runState, highNibbles, lowNibbles, runChannel, storeAll, interleave]
  | cons b rest ih =>
    intro s h1 h2 hlen
    simp only [List.length_cons] at hlen
    rw [decode_loop, loop_body_stereo c hc s b h1 h2 (by omega), Option.some_bind]
    rw [ih _ (specStep_ok _ _) (specStep_ok _ _) (by simp only [List.length_set]; omega)]
    simp only [runState, highNibbles, lowNibbles, List.map_cons, runChannel, storeAll,
      interleave, List.foldl_cons, List.length_cons, range_two_step, List.append_assoc,
      List.singleton_append]
    congr 2
    omega

/-! ## The output buffer -/

theorem set_at_length {α : Type} (pre : List α) (x y : α) (r : List α) :
    (pre ++ x :: r).set pre.length y = pre ++ y :: r := by
  induction pre with
  | nil => rfl
  | cons a pre ih => simp only [List.cons_append, List.length_cons, List.set_cons_succ, ih]

/-- Storing `vs` from the first free slot on fills the free slots in order. -/
theorem storeAll_fill (vs : List Int) : ∀ (pre : List (Option Int)) (k : Nat), vs.length ≤ k →
    storeAll (pre ++ List.replicate k none) pre.length vs
      = pre ++ (vs.map some ++ List.replicate (k - vs.length) none) := by
  induction vs with
  | nil => intro pre k _; simp [storeAll]
  | cons v vs ih =>
    intro pre k hk
    simp only [List.length_cons] at hk
    obtain ⟨j, rfl⟩ : ∃ j, k = j + 1 := ⟨k - 1, by omega⟩
    have h := ih (pre ++ [some v]) j (by omega)
    simp only [List.length_append, List.length_singleton, List.append_assoc,
      List.singleton_append] at h
    simp only [storeAll, List.replicate_succ, set_at_length, h, List.map_cons, List.length_cons,
      List.cons_append, Nat.add_sub_add_right]

theorem storeAll_fresh (vs : List Int) (k : Nat) (h : vs.length = k) :
    storeAll (List.replicate k none) 0 vs = vs.map some := by
  have e := storeAll_fill vs [] k (by omega)
  simp only [List.nil_append, List.length_nil] at e
  rw [e, h, Nat.sub_self, List.replicate_zero, List.append_nil]

theorem runChannel_length (ns : List Nat) : ∀ st, (runChannel st ns).length = ns.length := by
  induction ns with
  | nil => intro st; rfl
  | cons n ns ih => intro st; simp only [runChannel, List.length_cons, ih]

theorem nibbleStream_length (bs : List Byte) : (nibbleStream bs).length = bs.length * 2 := by
  induction bs with
  | nil => rfl
  | cons b bs ih => simp only [nibbleStream, List.length_cons, ih]; omega

theorem interleave_length (xs : List Int) : ∀ ys : List Int, xs.length = ys.length →
    (interleave xs ys).length = xs.length * 2 := by
  induction xs with
  | nil => intro ys _; cases ys <;> rfl
  | cons x xs ih =>
    intro ys h
    cases ys with
    | nil => simp at h
    | cons y ys =>
      simp only [List.length_cons, Nat.add_right_cancel_iff] at h
      simp only [interleave, List.length_cons, ih ys h]; omega

/-! ## `decode_adpcm` in closed form -/

theorem monoSamples_length (bs : List Byte) : (monoSamples bs).length = bs.length * 2 := by
  unfold monoSamples; rw [runChannel_length, nibbleStream_length]

theorem stereoSamples_length (bs : List Byte) : (stereoSamples bs).length = bs.length * 2 := by
  unfold stereoSamples
  rw [interleave_length, runChannel_length]
  · simp only [highNibbles, List.length_map]
  · simp only [runChannel_length, highNibbles, lowNibbles, List.length_map]

theorem decode_adpcm_locals_mono (bs : List Byte) :
    decode_adpcm_locals bs 1 = some
      { predictor_hi := (runState (0, 0) (nibbleStream bs)).1
        predictor_lo := 0
        idx1 := (runState (0, 0) (nibbleStream bs)).2
        idx2 := 0
        out := (monoSamples bs).map some
        pos := 2 * bs.length
        stores := List.range (2 * bs.length) } := by
  unfold decode_adpcm_locals
  rw [decode_loop_mono bs _ chanOk_fresh
    (by simp only [initial_state, List.length_replicate]; omega)]
  simp only [initial_state, List.nil_append, Nat.zero_add, List.range_eq_range']
  have e := storeAll_fresh _ _ (monoSamples_length bs)
  unfold monoSamples at e ⊢
  rw [e]

theorem decode_adpcm_locals_stereo (c : Int) (hc : c ≠ 1) (bs : List Byte) :
    decode_adpcm_locals bs c = some
      { predictor_hi := (runState (0, 0) (highNibbles bs)).1
        predictor_lo := (runState (0, 0) (lowNibbles bs)).1
        idx1 := (runState (0, 0) (highNibbles bs)).2
        idx2 := (runState (0, 0) (lowNibbles bs)).2
        out := (stereoSamples bs).map some
        pos := 2 * bs.length
        stores := List.range (2 * bs.length) } := by
  unfold decode_adpcm_locals
  rw [decode_loop_stereo c hc bs _ chanOk_fresh chanOk_fresh
    (by simp only [initial_state, List.length_replicate]; omega)]
  simp only [initial_state, List.nil_append, Nat.zero_add, List.range_eq_range']
  have e := storeAll_fresh _ _ (stereoSamples_length bs)
  unfold stereoSamples at e ⊢
  rw [e]

theorem decode_adpcm_mono (bs : List Byte) :
    decode_adpcm bs 1 = some ((monoSamples bs).map some, 2 * bs.length) := by
  unfold decode_adpcm; rw [decode_adpcm_locals_mono]; rfl

theorem decode_adpcm_stereo (c : Int) (hc : c ≠ 1) (bs : List Byte) :
    decode_adpcm bs c = some ((stereoSamples bs).map some, 2 * bs.length) := by
  unfold decode_adpcm; rw [decode_adpcm_locals_stereo c hc]; rfl

/-! ## Indexing the sample sequences -/

/-- The `k`-th sample of a channel decoder is its predictor after nibbles `0..k`. -/
theorem runChannel_getElem? (ns : List Nat) : ∀ (st : Int × Int) (k : Nat), k < ns.length →
    (runChannel st ns)[k]? = some (runState st (ns.take (k + 1))).1 := by
  induction ns with
  | nil => intro st k h; simp at h
  | cons n ns ih =>
    intro st k h
    cases k with
    | zero => simp [runChannel, runState]
    | succ k =>
      simp only [List.length_cons, Nat.add_lt_add_iff_right] at h
      have e := ih (specStep st n) k h
      simpa [runChannel, runState] using e

theorem interleave_even (xs : List Int) : ∀ (ys : List Int) (k : Nat), xs.length = ys.length →
    (interleave xs ys)[2 * k]? = xs[k]? := by
  induction xs with
  | nil => intro ys k _; cases ys <;> simp [interleave]
  | cons x xs ih =>
    intro ys k h
    cases ys with
    | nil => simp at h
    | cons y ys =>
      simp only [List.length_cons, Nat.add_right_cancel_iff] at h
      cases k with
      | zero => simp [interleave]
      | succ k =>
        have e : 2 * (k + 1) = 2 * k + 1 + 1 := by omega
        simp only [interleave, e, List.getElem?_cons_succ, ih ys k h]

theorem interleave_odd (xs : List Int) : ∀ (ys : List Int) (k : Nat), xs.length = ys.length →
    (interleave xs ys)[2 * k + 1]? = ys[k]? := by
  induction xs with
  | nil =>
    intro ys k h
    cases ys with
    | nil => simp [interleave]
    | cons y ys => simp at h
  | cons x xs ih =>
    intro ys k h
    cases ys with
    | nil => simp at h
    | cons y ys =>
      simp only [List.length_cons, Nat.add_right_cancel_iff] at h
      cases k with
      | zero => simp [interleave]
      | succ k =>
        have e : 2 * (k + 1) + 1 = (2 * k + 1) + 1 + 1 := by omega
        simp only [interleave, e, List.getElem?_cons_succ, ih ys k h]

theorem channels_same_length (bs : List Byte) :
    (runChannel (0, 0) (highNibbles bs)).length = (runChannel (0, 0) (lowNibbles bs)).length := by
  simp only [runChannel_length, highNibbles, lowNibbles, List.length_map]

theorem stereoSamples_even (bs : List Byte) (k : Nat) :
    (stereoSamples bs)[2 * k]? = (runChannel (0, 0) (highNibbles bs))[k]? :=
  interleave_even _ _ k (channels_same_length bs)

theorem stereoSamples_odd (bs : List Byte) (k : Nat) :
    (stereoSamples bs)[2 * k + 1]? = (runChannel (0, 0) (lowNibbles bs))[k]? :=
  interleave_odd _ _ k (channels_same_length bs)

theorem runChannel_range (ns : List Nat) : ∀ (st : Int × Int) (v : Int),
    v ∈ runChannel st ns → -32767 ≤ v ∧ v ≤ 32767 := by
  induction ns with
  | nil => intro st v h; simp [runChannel] at h
  | cons n ns ih =>
    intro st v h
    simp only [runChannel, List.mem_cons] at h
    rcases h with h | h
    · subst h; exact ⟨(specStep_ok st n).1, (specStep_ok st n).2.1⟩
    · exact ih _ v h

theorem interleave_mem (xs : List Int) : ∀ (ys : List Int) (v : Int),
    v ∈ interleave xs ys → v ∈ xs ∨ v ∈ ys := by
  induction xs with
  | nil => intro ys v h; cases ys <;> simp [interleave] at h
  | cons x xs ih =>
    intro ys v h
    cases ys with
    | nil => simp [interleave] at h
    | cons y ys =>
      simp only [interleave, List.mem_cons] at h ⊢
      rcases h with h | h | h
      · exact Or.inl (Or.inl h)
      · exact Or.inr (Or.inl h)
      · rcases ih ys v h with h | h
        · exact Or.inl (Or.inr h)
        · exact Or.inr (Or.inr h)

theorem monoSamples_range (bs : List Byte) (v : Int) (h : v ∈ monoSamples bs) :
    -32767 ≤ v ∧ v ≤ 32767 :=
  runChannel_range _ _ v h

theorem stereoSamples_range (bs : List Byte) (v : Int) (h : v ∈ stereoSamples bs) :
    -32767 ≤ v ∧ v ≤ 32767 := by
  rcases interleave_mem _ _ v h with h | h <;> exact runChannel_range _ _ v h

/-! ## What a block stores -/

theorem castInt16_clamp (x : Int) :
    castInt16 (clamp x (-32767) 32767) = clamp x (-32767) 32767 := by
  have h := clamp_range x (-32767) 32767 (by decide)
  exact castInt16_of_range _ (by omega) (by omega)

/-- Whenever the block on the high nibble completes, from any state at all, the
sample it stores at `pos` is the new `predictor_hi`, unchanged by the cast. -/
theorem channel1_block_sample (s s1 : DecoderState) (n : Nat)
    (h : channel1_block s n = some s1) :
    -32767 ≤ s1.predictor_hi ∧ s1.predictor_hi ≤ 32767 ∧
      castInt16 s1.predictor_hi = s1.predictor_hi ∧
      s1.out[s.pos]? = some (some s1.predictor_hi) := by
  simp only [channel1_block, Option.bind_eq_bind, Option.bind_eq_some] at h
  obtain ⟨step, -, delta, -, h⟩ := h
  by_cases hpos : s.pos < s.out.length
  · rw [if_pos hpos, Option.some.injEq] at h
    subst h
    simp only [castInt16_clamp, List.getElem?_set_self hpos, and_true]
    exact clamp_range _ (-32767) 32767 (by decide)
  · rw [if_neg hpos] at h
    exact absurd h (by simp)

theorem mono_low_block_sample (s s1 : DecoderState) (n : Nat)
    (h : mono_low_block s n = some s1) :
    -32767 ≤ s1.predictor_hi ∧ s1.predictor_hi ≤ 32767 ∧
      castInt16 s1.predictor_hi = s1.predictor_hi ∧
      s1.out[s.pos]? = some (some s1.predictor_hi) := by
  simp only [mono_low_block, Option.bind_eq_bind, Option.bind_eq_some] at h
  obtain ⟨step, -, delta, -, h⟩ := h
  by_cases hpos : s.pos < s.out.length
  · rw [if_pos hpos, Option.some.injEq] at h
    subst h
    simp only [castInt16_clamp, List.getElem?_set_self hpos, and_true]
    exact clamp_range _ (-32767) 32767 (by decide)
  · rw [if_neg hpos] at h
    exact absurd h (by simp)

theorem stereo_low_block_sample (s s1 : DecoderState) (n : Nat)
    (h : stereo_low_block s n = some s1) :
    -32767 ≤ s1.predictor_lo ∧ s1.predictor_lo ≤ 32767 ∧
      castInt16 s1.predictor_lo = s1.predictor_lo ∧
      s1.out[s.pos]? = some (some s1.predictor_lo) := by
  simp only [stereo_low_block, Option.bind_eq_bind, Option.bind_eq_some] at h
  obtain ⟨step, -, delta, -, h⟩ := h
  by_cases hpos : s.pos < s.out.length
  · rw [if_pos hpos, Option.some.injEq] at h
    subst h
    simp only [castInt16_clamp, List.getElem?_set_self hpos, and_true]
    exact clamp_range _ (-32767) 32767 (by decide)
  · rw [if_neg hpos] at h
    exact absurd h (by simp)

/-! ## The state at the head of an iteration -/

/-- The loop over `xs ++ ys` is the loop over `xs` followed by the loop over `ys`. -/
theorem decode_loop_append (c : Int) (xs ys : List Byte) : ∀ s : DecoderState,
    decode_loop c s (xs ++ ys) = (decode_loop c s xs).bind fun s1 => decode_loop c s1 ys := by
  induction xs with
  | nil => intro s; rfl
  | cons x xs ih =>
    intro s
    simp only [List.cons_append, decode_loop]
    cases loop_body c s x with
    | none => rfl
    | some s1 => exact ih s1

theorem storeAll_length (vs : List Int) : ∀ (out : List (Option Int)) (pos : Nat),
    (storeAll out pos vs).length = out.length := by
  induction vs with
  | nil => intro out pos; rfl
  | cons v vs ih => intro out pos; simp only [storeAll, ih, List.length_set]

/-- After any number of input bytes that the buffer has room for, the loop has
completed and both channel pairs are in range. -/
theorem loop_head_state (c : Int) (pre : List Byte) (N : Nat) (h : 2 * pre.length ≤ N * 2) :
    ∃ s, decode_loop c (initial_state N) pre = some s ∧ ChanOk (s.predictor_hi, s.idx1) ∧
      ChanOk (s.predictor_lo, s.idx2) ∧ s.pos = 2 * pre.length ∧ s.out.length = N * 2 := by
  have hroom : (initial_state N).pos + 2 * pre.length ≤ (initial_state N).out.length := by
    simp only [initial_state, List.length_replicate]; omega
  by_cases hc : c = 1
  · subst hc
    refine ⟨_, decode_loop_mono pre _ chanOk_fresh hroom, runState_ok _ _ chanOk_fresh,
      chanOk_fresh, ?_, ?_⟩
    · simp only [initial_state, Nat.zero_add]
    · simp only [storeAll_length, initial_state, List.length_replicate]
  · refine ⟨_, decode_loop_stereo c hc pre _ chanOk_fresh chanOk_fresh hroom,
      runState_ok _ _ chanOk_fresh, runState_ok _ _ chanOk_fresh, ?_, ?_⟩
    · simp only [initial_state, Nat.zero_add]
    · simp only [storeAll_length, initial_state, List.length_replicate]

/-- One iteration from a state with both channel pairs in range and two free
slots: both blocks complete and leave both pairs in range. -/
theorem loop_body_ok (c : Int) (s : DecoderState) (x : Byte)
    (h1 : ChanOk (s.predictor_hi, s.idx1)) (h2 : ChanOk (s.predictor_lo, s.idx2))
    (hpos : s.pos + 1 < s.out.length) :
    ∃ s1 s2, channel1_block s (x.val >>> 4) = some s1 ∧ IndicesInRange s1 ∧
      loop_body c s x = some s2 ∧ IndicesInRange s2 := by
  obtain ⟨a0, a1, a2, a3⟩ := h1
  obtain ⟨b0, b1, b2, b3⟩ := h2
  obtain ⟨-, -, c2, c3⟩ := specStep_ok (s.predictor_hi, s.idx1) (x.val >>> 4)
  have e1 := channel1_block_eq s _ (hi_nibble_lt x) a0 a1 a2 a3 (by omega)
  by_cases hc : c = 1
  · subst hc
    obtain ⟨-, -, d2, d3⟩ :=
      specStep_ok (specStep (s.predictor_hi, s.idx1) (x.val >>> 4)) (x.val &&& 15)
    exact ⟨_, _, e1, ⟨c2, c3, b2, b3⟩, loop_body_mono s x ⟨a0, a1, a2, a3⟩ hpos,
      ⟨d2, d3, b2, b3⟩⟩
  · obtain ⟨-, -, d2, d3⟩ := specStep_ok (s.predictor_lo, s.idx2) (x.val &&& 15)
    exact ⟨_, _, e1, ⟨c2, c3, b2, b3⟩,
      loop_body_stereo c hc s x ⟨a0, a1, a2, a3⟩ ⟨b0, b1, b2, b3⟩ hpos,
      ⟨c2, c3, d2, d3⟩⟩

theorem tableAt_step_ne_none (i : Int) (h0 : 0 ≤ i) (h1 : i ≤ 48) :
    tableAt STEP_TABLE i ≠ none := by
  obtain ⟨step, hs, -⟩ := tableAt_step i h0 h1
  rw [hs]; exact Option.some_ne_none _

theorem tableAt_index_ne_none (n : Nat) (h : n < 16) : tableAt INDEX_TABLE (n : Int) ≠ none := by
  obtain ⟨d, hd, -⟩ := tableAt_index n h
  rw [hd]; exact Option.some_ne_none _

/-! ## Claims on the decoder -/

/-- C1: for a channel state with predictor `p` in [-32767, 32767] and step index `i`
in [0, 48] and a nibble `n` in 0..15, with `step = STEP_TABLE[i]`, each of the three
nibble blocks of `decode_adpcm` (high nibble, mono low nibble, stereo low nibble)
sets the predictor to `clamp(p + d, -32767, 32767)`, where
`magnitude = (step >> 3) + (n&1 ? step>>2 : 0) + (n&2 ? step>>1 : 0) + (n&4 ? step : 0)`
and `d` is `-magnitude` if `n&8` and `magnitude` otherwise, sets the step index to
`clamp(i + INDEX_TABLE[n], 0, 48)`, and stores the new predictor as the sample in the
free slot `out[pos]`; from the fresh state (0, 0), nibble 0 gives predictor 32 and
step index 0. -/
theorem C1_per_nibble_step (s : DecoderState) (p i : Int) (n : Nat)
    (hp : -32767 ≤ p ∧ p ≤ 32767) (hi : 0 ≤ i ∧ i ≤ 48) (hn : n < 16)
    (hpos : s.pos < s.out.length) :
    ∃ step delta : Int,
      tableAt STEP_TABLE i = some step ∧ tableAt INDEX_TABLE n = some delta ∧
      ∃ magnitude d p1 i1 : Int,
        magnitude = (step >>> (3 : Nat)) + (if n &&& 1 ≠ 0 then step >>> (2 : Nat) else 0)
          + (if n &&& 2 ≠ 0 then step >>> (1 : Nat) else 0)
          + (if n &&& 4 ≠ 0 then step else 0) ∧
        d = (if n &&& 8 ≠ 0 then -magnitude else magnitude) ∧
        p1 = clamp (p + d) (-32767) 32767 ∧
        i1 = clamp (i + delta) 0 48 ∧
        channel1_block { s with predictor_hi := p, idx1 := i } n = some
          { s with predictor_hi := p1, idx1 := i1, out := s.out.set s.pos (some p1),
                   pos := s.pos + 1, stores := s.stores ++ [s.pos] } ∧
        mono_low_block { s with predictor_hi := p, idx1 := i } n = some
          { s with predictor_hi := p1, idx1 := i1, out := s.out.set s.pos (some p1),
                   pos := s.pos + 1, stores := s.stores ++ [s.pos] } ∧
        stereo_low_block { s with predictor_lo := p, idx2 := i } n = some
          { s with predictor_lo := p1, idx2 := i1, out := s.out.set s.pos (some p1),
                   pos := s.pos + 1, stores := s.stores ++ [s.pos] } ∧
        channel1_block (initial_state 1) 0 = some
          { initial_state 1 with predictor_hi := 32, idx1 := 0, out := [some 32, none],
                                 pos := 1, stores := [0] } := by
  obtain ⟨step, hs, hs2, -, -⟩ := tableAt_step i hi.1 hi.2
  obtain ⟨delta, hd, hd2, -, -⟩ := tableAt_index n hn
  have e : specStep (p, i) n = (clamp (p + (if n &&& 8 ≠ 0 then -specMagnitude step n
      else specMagnitude step n)) (-32767) 32767, clamp (i + delta) 0 48) := by
    simp only [specStep, hs2, hd2]
  refine ⟨step, delta, hs, hd, specMagnitude step n, _, _, _, rfl, rfl, rfl, rfl,
    ?_, ?_, ?_, ?_⟩
  · have h := channel1_block_eq { s with predictor_hi := p, idx1 := i } n hn hp.1 hp.2
      hi.1 hi.2 hpos
    simp only [e] at h
    exact h
  · have h := mono_low_block_eq { s with predictor_hi := p, idx1 := i } n hn hp.1 hp.2
      hi.1 hi.2 hpos
    simp only [e] at h
    exact h
  · have h := stereo_low_block_eq { s with predictor_lo := p, idx2 := i } n hn hp.1 hp.2
      hi.1 hi.2 hpos
    simp only [e] at h
    exact h
  · decide

theorem C1_per_nibble_step_witness :
    ((-32767 : Int) ≤ 0 ∧ (0 : Int) ≤ 32767) ∧ ((0 : Int) ≤ 0 ∧ (0 : Int) ≤ 48) ∧
    0 < 16 ∧
    (initial_state 1).pos < (initial_state 1).out.length ∧
    ∃ step delta : Int, tableAt STEP_TABLE 0 = some step ∧
      tableAt INDEX_TABLE ((0 : Nat) : Int) = some delta :=
  ⟨by decide, by decide, by decide, by decide,
    (C1_per_nibble_step (initial_state 1) 0 0 0 (by decide) (by decide) (by decide)
      (by decide)).elim fun step h => h.elim fun delta h => ⟨step, delta, h.1, h.2.1⟩⟩

/-- C2: for every byte sequence `b`, `decode_adpcm(b, 2)` returns the interleaving of
two channel decoders: `out[2k]` is the sample of a decoder run from the fresh state
(0, 0) over the high nibbles `b[0]>>4 .. b[k]>>4`, and `out[2k+1]` the sample of a
separate decoder run from (0, 0) over the low nibbles `b[0]&15 .. b[k]&15`; the
channel-1 samples are the same for any input with the same high nibbles, and the
channel-2 samples for any input with the same low nibbles. -/
theorem C2_stereo_two_decoders (b : List Byte) :
    ∃ out : List (Option Int), decode_adpcm b 2 = some (out, 2 * b.length) ∧
      out = (interleave (runChannel (0, 0) (highNibbles b))
              (runChannel (0, 0) (lowNibbles b))).map some ∧
      (∀ k, k < b.length →
        out[2 * k]? = some (some (runState (0, 0) (highNibbles (b.take (k + 1)))).1) ∧
        out[2 * k + 1]? = some (some (runState (0, 0) (lowNibbles (b.take (k + 1)))).1)) ∧
      (∀ b2 : List Byte, highNibbles b2 = highNibbles b →
        ∃ out2, decode_adpcm b2 2 = some (out2, 2 * b2.length) ∧
          ∀ k, out2[2 * k]? = out[2 * k]?) ∧
      (∀ b2 : List Byte, lowNibbles b2 = lowNibbles b →
        ∃ out2, decode_adpcm b2 2 = some (out2, 2 * b2.length) ∧
          ∀ k, out2[2 * k + 1]? = out[2 * k + 1]?) := by
  refine ⟨_, decode_adpcm_stereo 2 (by decide) b, rfl, ?_, ?_, ?_⟩
  · intro k hk
    have hh : k < (highNibbles b).length := by simpa [highNibbles] using hk
    have hl : k < (lowNibbles b).length := by simpa [lowNibbles] using hk
    have e1 := stereoSamples_even b k
    have e2 := stereoSamples_odd b k
    rw [List.getElem?_map, List.getElem?_map, e1, e2, runChannel_getElem? _ _ _ hh,
      runChannel_getElem? _ _ _ hl]
    simp only [highNibbles, lowNibbles, List.map_take, Option.map_some', and_self]
  · intro b2 h2
    refine ⟨_, decode_adpcm_stereo 2 (by decide) b2, ?_⟩
    intro k
    have e1 := stereoSamples_even b k
    have e2 := stereoSamples_even b2 k
    rw [List.getElem?_map, List.getElem?_map, e1, e2, h2]
  · intro b2 h2
    refine ⟨_, decode_adpcm_stereo 2 (by decide) b2, ?_⟩
    intro k
    have e1 := stereoSamples_odd b k
    have e2 := stereoSamples_odd b2 k
    rw [List.getElem?_map, List.getElem?_map, e1, e2, h2]

/-- C3: for every byte sequence `b`, `decode_adpcm(b, 1)` returns the samples of one
channel decoder run from the fresh state (0, 0) over the nibble stream
`b[0]>>4, b[0]&15, b[1]>>4, b[1]&15, ...`; the second state pair
`(predictor_lo, idx2)` has no influence on the output, whatever its initial value. -/
theorem C3_mono_one_decoder (b : List Byte) :
    decode_adpcm b 1 = some ((runChannel (0, 0) (nibbleStream b)).map some, 2 * b.length) ∧
    ∀ plo i2 : Int,
      (decode_loop 1 { initial_state b.length with predictor_lo := plo, idx2 := i2 } b).map
        (fun s => (s.out, s.pos)) = decode_adpcm b 1 := by
  refine ⟨decode_adpcm_mono b, ?_⟩
  intro plo i2
  rw [decode_adpcm_mono, decode_loop_mono b _ chanOk_fresh
    (by simp only [initial_state, List.length_replicate]; omega)]
  have e := storeAll_fresh _ _ (monoSamples_length b)
  unfold monoSamples at e ⊢
  simp only [initial_state, Option.map_some', Nat.zero_add, e]

/-- C4: for every byte sequence of length `n` and every channel count,
`decode_adpcm` returns `out_count = 2*n`, the number of slots allocated; every slot
holds a stored sample, the stores went to the slots `0, 1, ..., 2*n - 1` in this
order, once each, and no store fell outside the buffer. -/
theorem C4_output_count (b : List Byte) (c : Int) :
    ∃ s : DecoderState, decode_adpcm_locals b c = some s ∧
      decode_adpcm b c = some (s.out, 2 * b.length) ∧
      s.pos = 2 * b.length ∧
      (initial_state b.length).out.length = 2 * b.length ∧
      s.out.length = 2 * b.length ∧
      (∀ k, k < 2 * b.length → ∃ v : Int, s.out[k]? = some (some v)) ∧
      s.stores = List.range (2 * b.length) := by
  have hfill : ∀ vs : List Int, vs.length = b.length * 2 →
      ∀ k, k < 2 * b.length → ∃ v : Int, (vs.map some)[k]? = some (some v) := by
    intro vs hv k hk
    have hk2 : k < vs.length := by omega
    exact ⟨vs[k], by rw [List.getElem?_map, List.getElem?_eq_getElem hk2]; rfl⟩
  by_cases hc : c = 1
  · subst hc
    refine ⟨_, decode_adpcm_locals_mono b, decode_adpcm_mono b, rfl, ?_, ?_, ?_, rfl⟩
    · simp only [initial_state, List.length_replicate]; omega
    · simp only [List.length_map, monoSamples_length]; omega
    · exact hfill _ (monoSamples_length b)
  · refine ⟨_, decode_adpcm_locals_stereo c hc b, decode_adpcm_stereo c hc b, rfl, ?_, ?_, ?_,
      rfl⟩
    · simp only [initial_state, List.length_replicate]; omega
    · simp only [List.length_map, stereoSamples_length]; omega
    · exact hfill _ (stereoSamples_length b)

/-- C5: for every byte sequence and channel count, `decode_adpcm` completes and every
sample it emits lies in [-32767, 32767], so -32768 is never produced; in each of
the three blocks the cast to `int16_t` leaves the predictor unchanged, and the
sample stored is exactly the new predictor. -/
theorem C5_samples_in_range (b : List Byte) (c : Int) :
    (∃ out, decode_adpcm b c = some (out, 2 * b.length) ∧
      ∀ x ∈ out, ∃ v : Int, x = some v ∧ -32767 ≤ v ∧ v ≤ 32767 ∧ v ≠ -32768) ∧
    (∀ (s s1 : DecoderState) (n : Nat), channel1_block s n = some s1 →
      castInt16 s1.predictor_hi = s1.predictor_hi ∧
        s1.out[s.pos]? = some (some s1.predictor_hi)) ∧
    (∀ (s s1 : DecoderState) (n : Nat), mono_low_block s n = some s1 →
      castInt16 s1.predictor_hi = s1.predictor_hi ∧
        s1.out[s.pos]? = some (some s1.predictor_hi)) ∧
    (∀ (s s1 : DecoderState) (n : Nat), stereo_low_block s n = some s1 →
      castInt16 s1.predictor_lo = s1.predictor_lo ∧
        s1.out[s.pos]? = some (some s1.predictor_lo)) := by
  refine ⟨?_, fun s s1 n h => (channel1_block_sample s s1 n h).2.2,
    fun s s1 n h => (mono_low_block_sample s s1 n h).2.2,
    fun s s1 n h => (stereo_low_block_sample s s1 n h).2.2⟩
  by_cases hc : c = 1
  · subst hc
    refine ⟨_, decode_adpcm_mono b, ?_⟩
    intro x hx
    obtain ⟨v, hv, rfl⟩ := List.mem_map.1 hx
    have r := monoSamples_range b v hv
    exact ⟨v, rfl, r.1, r.2, by omega⟩
  · refine ⟨_, decode_adpcm_stereo c hc b, ?_⟩
    intro x hx
    obtain ⟨v, hv, rfl⟩ := List.mem_map.1 hx
    have r := stereoSamples_range b v hv
    exact ⟨v, rfl, r.1, r.2, by omega⟩

/-- C6: for every byte sequence and channel count, both step indices of
`decode_adpcm` are in [0, 48] at every point of the loop: when the loop is left,
at the head of every iteration (the input being `pre ++ x :: post`, with `x` the byte
of that iteration), between the two blocks of an iteration and at its end; every
lookup `STEP_TABLE[idx]` and `INDEX_TABLE[nibble]` made there is inside
its table, so the decoder never takes the out-of-range branch. -/
theorem C6_step_index_in_range (c : Int) :
    (∀ b : List Byte, ∃ s, decode_adpcm_locals b c = some s ∧ IndicesInRange s) ∧
    (∀ (pre : List Byte) (x : Byte) (post : List Byte), ∃ s s1 s2 : DecoderState,
      decode_loop c (initial_state (pre ++ x :: post).length) pre = some s ∧
      IndicesInRange s ∧
      tableAt STEP_TABLE s.idx1 ≠ none ∧
      tableAt INDEX_TABLE ((x.val >>> 4 : Nat) : Int) ≠ none ∧
      channel1_block s (x.val >>> 4) = some s1 ∧
      IndicesInRange s1 ∧
      tableAt STEP_TABLE s1.idx1 ≠ none ∧ tableAt STEP_TABLE s1.idx2 ≠ none ∧
      tableAt INDEX_TABLE ((x.val &&& 15 : Nat) : Int) ≠ none ∧
      loop_body c s x = some s2 ∧
      IndicesInRange s2 ∧
      decode_adpcm_locals (pre ++ x :: post) c = decode_loop c s2 post) := by
  constructor
  · intro b
    obtain ⟨s, hs, h1, h2, -, -⟩ := loop_head_state c b b.length (by omega)
    exact ⟨s, hs, h1.2.2.1, h1.2.2.2, h2.2.2.1, h2.2.2.2⟩
  · intro pre x post
    obtain ⟨s, hs, h1, h2, hp, hl⟩ :=
      loop_head_state c pre (pre ++ x :: post).length
        (by simp only [List.length_append, List.length_cons]; omega)
    obtain ⟨s1, s2, e1, r1, e2, r2⟩ := loop_body_ok c s x h1 h2
      (by rw [hp, hl]; simp only [List.length_append, List.length_cons]; omega)
    refine ⟨s, s1, s2, hs, ⟨h1.2.2.1, h1.2.2.2, h2.2.2.1, h2.2.2.2⟩,
      tableAt_step_ne_none _ h1.2.2.1 h1.2.2.2, tableAt_index_ne_none _ (hi_nibble_lt x),
      e1, r1, tableAt_step_ne_none _ r1.1 r1.2.1, tableAt_step_ne_none _ r1.2.2.1 r1.2.2.2,
      tableAt_index_ne_none _ (lo_nibble_lt x), e2, r2, ?_⟩
    unfold decode_adpcm_locals
    rw [decode_loop_append, hs, Option.some_bind, decode_loop, e2, Option.some_bind]

/-- C7, as stated, fails: decoding the single mono byte 0x00 does not yield the
two samples 0, 0. -/
theorem C7_single_zero_byte_not_zero :
    decode_adpcm [0] 1 ≠ some ([some 0, some 0], 2) := by decide

/-- C7, amended: decoding a mono ADPCM payload consisting of the single byte 0x00
yields exactly two samples, 32 and then 64. -/
theorem C7_single_zero_byte : decode_adpcm [0] 1 = some ([some 32, some 64], 2) := by decide

/-! ## Bytes and 32-bit fields -/

theorem value_le_bytes_u32 (x : Nat) : value_le (bytes_u32 x) = x % 4294967296 := by
  simp only [bytes_u32, value_le, byteOf]
  omega

theorem value_le_four (b0 b1 b2 b3 : Byte) :
    value_le [b0, b1, b2, b3] = b0.val + 256 * b1.val + 65536 * b2.val + 16777216 * b3.val := by
  simp only [value_le]
  omega

theorem value_le_four_lt (b0 b1 b2 b3 : Byte) : value_le [b0, b1, b2, b3] < 4294967296 := by
  have h0 := b0.isLt
  have h1 := b1.isLt
  have h2 := b2.isLt
  have h3 := b3.isLt
  rw [value_le_four]
  omega

/-- A 32-bit field written after the bytes `pre` is read back at offset `pre.length`. -/
theorem load_u32_field (pre : List Byte) (x : Nat) (post : List Byte) (off : Nat)
    (h : off = pre.length) :
    load_u32 (pre ++ (bytes_u32 x ++ post)) off = some (x % 4294967296) := by
  subst h
  have hlen : pre.length + 4 ≤ (pre ++ (bytes_u32 x ++ post)).length := by
    simp only [List.length_append, bytes_u32, List.length_cons, List.length_nil]; omega
  unfold load_u32 memcpy_from
  rw [if_pos hlen, List.drop_left]
  simp only [bytes_u32, List.cons_append, List.nil_append, List.take_succ_cons, List.take_zero,
    Option.map_some']
  exact congrArg some (value_le_bytes_u32 x)

/-- The two size fields of the header `write_wav` writes, for any sample count:
the data size is `2 * n` reduced to 32 bits, the total size is 36 more, reduced
to 32 bits again. -/
theorem write_wav_size_fields (samples : List Int) (nChannels : Int) (sampleRate : Nat) :
    load_u32 (write_wav_stream samples nChannels sampleRate) 4
      = some ((36 + (2 * samples.length) % 4294967296) % 4294967296) ∧
    load_u32 (write_wav_stream samples nChannels sampleRate) 40
      = some ((2 * samples.length) % 4294967296) := by
  constructor
  · unfold write_wav_stream
    rw [load_u32_field tag_RIFF _ _ 4 rfl]
    simp only [wrapU32, wrapU64]
    congr 1
    omega
  · unfold write_wav_stream
    simp only [← List.append_assoc]
    rw [List.append_assoc _ (bytes_u32 _) _, load_u32_field _ _ _ 40 (by
      simp only [List.length_append, tag_RIFF, tag_WAVE, tag_fmt, tag_data, bytes_u32, bytes_u16,
        List.length_cons, List.length_nil])]
    simp only [wrapU32, wrapU64]
    congr 1
    omega

/-! ## The locator and the reader -/

theorem table_end_exact (num_wavs : Nat) (hn : num_wavs < 4294967296) :
    wrapU64 (64 + wrapU64 (num_wavs * 64)) = 64 + 64 * num_wavs := by
  unfold wrapU64; omega

theorem memcpy_from_some (buf : List Byte) (offset n : Nat) (h : offset + n ≤ buf.length) :
    memcpy_from buf offset n = some ((buf.drop offset).take n) := by
  unfold memcpy_from; rw [if_pos h]

/-- The loop that fills `entries`, when the table lies inside the buffer: record
`j` is the 64 bytes at `64 + 64 * j` with name byte 27 set to zero. -/
theorem read_entries_ok (fileBuf : List Byte) (k : Nat) : ∀ i : Nat,
    i + k ≤ 4294967296 → 64 + 64 * (i + k) ≤ fileBuf.length →
    read_entries fileBuf i k = .ok ((List.range' i k).map fun j =>
      ((fileBuf.drop (64 + 64 * j)).take 64).set 63 0) := by
  induction k with
  | zero => intro i _ _; rfl
  | succ k ih =>
    intro i hi hlen
    have hoff : wrapU64 (64 + wrapU64 (i * 64)) = 64 + 64 * i := by unfold wrapU64; omega
    rw [read_entries]
    simp only [hoff]
    rw [memcpy_from_some fileBuf (64 + 64 * i) 64 (by omega)]
    simp only []
    rw [ih (i + 1) (by omega) (by omega)]
    simp only [List.range'_succ, List.map_cons]

theorem load_u32_zero (b0 b1 b2 b3 : Byte) (rest : List Byte) :
    load_u32 (b0 :: b1 :: b2 :: b3 :: rest) 0 = some (value_le [b0, b1, b2, b3]) := by
  unfold load_u32
  rw [memcpy_from_some _ 0 4 (by simp only [List.length_cons]; omega)]
  rfl

theorem read_entries_ne_tooSmall (fileBuf : List Byte) (k : Nat) : ∀ i : Nat,
    read_entries fileBuf i k ≠ .error .tooSmall := by
  induction k with
  | zero => intro i h; simp [read_entries] at h
  | succ k ih =>
    intro i h
    rw [read_entries] at h
    cases hm : memcpy_from fileBuf (wrapU64 (64 + wrapU64 (i * 64))) 64 with
    | none => simp [hm] at h
    | some e =>
      cases hr : read_entries fileBuf (i + 1) k with
      | error f =>
        simp only [hm, hr, Except.error.injEq] at h
        exact ih (i + 1) (by rw [hr, h])
      | ok rest => simp [hm, hr] at h

theorem read_container_tooSmall (fileBuf : List Byte) :
    read_container fileBuf = .error .tooSmall ↔ fileBuf.length < 64 := by
  constructor
  · intro h
    by_contra hlt
    unfold read_container at h
    simp only [if_neg hlt] at h
    cases hl : load_u32 fileBuf 0 with
    | none => simp [hl] at h
    | some num_wavs =>
      simp only [hl] at h
      split_ifs at h
      · exact absurd h (by simp)
      · exact read_entries_ne_tooSmall _ _ _ h
  · intro h
    unfold read_container
    simp only [if_pos h]

/-- The result of the reader on a buffer of at least 64 bytes. -/
theorem read_container_eq (b0 b1 b2 b3 : Byte) (rest : List Byte)
    (h64 : 64 ≤ (b0 :: b1 :: b2 :: b3 :: rest).length) :
    read_container (b0 :: b1 :: b2 :: b3 :: rest) =
      if (b0 :: b1 :: b2 :: b3 :: rest).length < 64 + 64 * value_le [b0, b1, b2, b3]
      then .error .truncated
      else .ok ((List.range' 0 (value_le [b0, b1, b2, b3])).map fun j =>
        (((b0 :: b1 :: b2 :: b3 :: rest).drop (64 + 64 * j)).take 64).set 63 0) := by
  have hc := value_le_four_lt b0 b1 b2 b3
  unfold read_container
  simp only [if_neg (Nat.not_lt.2 h64), load_u32_zero, table_end_exact _ hc]
  by_cases ht : (b0 :: b1 :: b2 :: b3 :: rest).length < 64 + 64 * value_le [b0, b1, b2, b3]
  · simp only [if_pos ht]
  · simp only [if_neg ht]
    exact read_entries_ok _ _ 0 (by omega) (by omega)

theorem record_bytes (buf : List Byte) (off j : Nat) (hj : j < 63) :
    (((buf.drop off).take 64).set 63 0)[j]? = buf[off + j]? := by
  rw [List.getElem?_set_ne (by omega), List.getElem?_take_of_lt (by omega), List.getElem?_drop]

/-! ## Claims on the locator, the reader and the emitter -/

/-- C8: for every file size, every 32-bit entry count and every record with 32-bit
`payloadOffset` and `payloadSize`, the values `wavStart` and `wavEnd` computed in
64-bit `size_t` arithmetic are the exact sums `(64 + 64*entryCount) + payloadOffset`
and `wavStart + payloadSize`; the entry is rejected exactly when `wavEnd > fileSize`;
and for an accepted entry `64 + 64*entryCount <= wavStart <= wavEnd <= fileSize`, so
every payload byte `wavStart + i`, `i < payloadSize`, lies inside the file buffer. -/
theorem C8_payload_range (fileSize num_wavs relOffset wavSize : Nat)
    (hn : num_wavs < 4294967296) (ho : relOffset < 4294967296) (hs : wavSize < 4294967296) :
    wavStart num_wavs relOffset = (64 + 64 * num_wavs) + relOffset ∧
    wavEnd num_wavs relOffset wavSize = (64 + 64 * num_wavs) + relOffset + wavSize ∧
    (payload_range fileSize num_wavs relOffset wavSize = none ↔
      (64 + 64 * num_wavs) + relOffset + wavSize > fileSize) ∧
    (¬ ((64 + 64 * num_wavs) + relOffset + wavSize > fileSize) →
      payload_range fileSize num_wavs relOffset wavSize =
        some ((64 + 64 * num_wavs) + relOffset, (64 + 64 * num_wavs) + relOffset + wavSize)) ∧
    (∀ s e : Nat, payload_range fileSize num_wavs relOffset wavSize = some (s, e) →
      64 + 64 * num_wavs ≤ s ∧ s ≤ e ∧ e ≤ fileSize ∧ e = s + wavSize ∧
        (∀ i, i < wavSize → s + i < fileSize) ∧
        (∀ fileBuf : List Byte, fileBuf.length = fileSize →
          memcpy_from fileBuf s wavSize = some ((fileBuf.drop s).take wavSize))) := by
  have h1 : wavStart num_wavs relOffset = (64 + 64 * num_wavs) + relOffset := by
    unfold wavStart audioDataOffset wrapU64; omega
  have h2 : wavEnd num_wavs relOffset wavSize = (64 + 64 * num_wavs) + relOffset + wavSize := by
    unfold wavEnd; rw [h1]; unfold wrapU64; omega
  refine ⟨h1, h2, ?_, ?_, ?_⟩
  · unfold payload_range
    rw [h1, h2]
    by_cases hgt : 64 + 64 * num_wavs + relOffset + wavSize > fileSize
    · rw [if_pos hgt]
      exact ⟨fun _ => hgt, fun _ => rfl⟩
    · rw [if_neg hgt]
      exact ⟨fun h => absurd h (Option.some_ne_none _), fun h => absurd h hgt⟩
  · intro hle
    unfold payload_range
    rw [h1, h2, if_neg hle]
  · intro s e hse
    unfold payload_range at hse
    rw [h1, h2] at hse
    by_cases hgt : 64 + 64 * num_wavs + relOffset + wavSize > fileSize
    · rw [if_pos hgt] at hse
      exact absurd hse (by simp)
    · rw [if_neg hgt, Option.some.injEq, Prod.mk.injEq] at hse
      obtain ⟨rfl, rfl⟩ := hse
      refine ⟨by omega, by omega, by omega, rfl, fun i hi => by omega, fun fileBuf hlen => ?_⟩
      exact memcpy_from_some _ _ _ (by omega)

theorem C8_payload_range_witness :
    (1 < 4294967296 ∧ 8 < 4294967296 ∧ 16 < 4294967296) ∧
    wavStart 1 8 = 136 ∧ wavEnd 1 8 16 = 152 ∧
    payload_range 200 1 8 16 = some (136, 152) ∧ payload_range 151 1 8 16 = none :=
  ⟨by decide, (C8_payload_range 200 1 8 16 (by decide) (by decide) (by decide)).1,
    (C8_payload_range 200 1 8 16 (by decide) (by decide) (by decide)).2.1,
    (C8_payload_range 200 1 8 16 (by decide) (by decide) (by decide)).2.2.2.1 (by decide),
    (C8_payload_range 151 1 8 16 (by decide) (by decide) (by decide)).2.2.1.2 (by decide)⟩

/-- C9: the reader fails with `tooSmall` exactly when `fileSize < 64`; otherwise,
with `entryCount` the little-endian 32-bit value of bytes 0..3, it fails with
`truncated` exactly when `fileSize < 64 + 64*entryCount`, a comparison whose 64-bit
right-hand side does not wrap; when it does not fail it produces exactly
`entryCount` records, record `i` being copied from the 64-byte slice at file offset
`64 + 64*i` (all 64 bytes inside the buffer; bytes 0..62 as in the file, the last
name byte then set to the terminator). -/
theorem C9_container_reader (b0 b1 b2 b3 : Byte) (rest fileBuf : List Byte) (entryCount : Nat)
    (hbuf : fileBuf = b0 :: b1 :: b2 :: b3 :: rest)
    (hcount : entryCount = b0.val + 256 * b1.val + 65536 * b2.val + 16777216 * b3.val) :
    (∀ buf : List Byte, read_container buf = .error .tooSmall ↔ buf.length < 64) ∧
    (64 ≤ fileBuf.length →
      load_u32 fileBuf 0 = some entryCount ∧
      wrapU64 (64 + wrapU64 (entryCount * 64)) = 64 + 64 * entryCount ∧
      (read_container fileBuf = .error .truncated ↔ fileBuf.length < 64 + 64 * entryCount) ∧
      (¬ fileBuf.length < 64 + 64 * entryCount →
        ∃ entries : List WaveAttributes, read_container fileBuf = .ok entries ∧
          entries.length = entryCount ∧
          ∀ i, i < entryCount →
            64 + 64 * i + 64 ≤ fileBuf.length ∧
            memcpy_from fileBuf (64 + 64 * i) 64 = some ((fileBuf.drop (64 + 64 * i)).take 64) ∧
            entries[i]? = some (((fileBuf.drop (64 + 64 * i)).take 64).set 63 0) ∧
            ∀ j, j < 63 →
              (((fileBuf.drop (64 + 64 * i)).take 64).set 63 0)[j]?
                = fileBuf[64 + 64 * i + j]?)) := by
  refine ⟨read_container_tooSmall, ?_⟩
  intro h64
  subst hbuf
  have hv := value_le_four b0 b1 b2 b3
  rw [← hcount] at hv
  have hlt := value_le_four_lt b0 b1 b2 b3
  rw [hv] at hlt
  have heq := read_container_eq b0 b1 b2 b3 rest h64
  rw [hv] at heq
  refine ⟨by rw [load_u32_zero, hv], table_end_exact _ hlt, ?_, ?_⟩
  · by_cases ht : (b0 :: b1 :: b2 :: b3 :: rest).length < 64 + 64 * entryCount
    · rw [heq, if_pos ht]
      exact ⟨fun _ => ht, fun _ => rfl⟩
    · rw [heq, if_neg ht]
      exact ⟨fun h => absurd h (by simp), fun h => absurd h ht⟩
  · intro ht
    rw [heq, if_neg ht]
    refine ⟨_, rfl, by simp only [List.length_map, List.length_range'], ?_⟩
    intro i hi
    have hin : 64 + 64 * i + 64 ≤ (b0 :: b1 :: b2 :: b3 :: rest).length := by omega
    refine ⟨hin, memcpy_from_some _ _ _ hin, ?_, fun j hj => record_bytes _ _ j hj⟩
    rw [List.getElem?_map, List.getElem?_range' _ _ hi]
    simp only [Nat.zero_add, Nat.one_mul, Option.map_some']

theorem C9_container_reader_witness :
    (1 :: 0 :: 0 :: 0 :: List.replicate 124 (0 : Byte)
      = 1 :: 0 :: 0 :: 0 :: List.replicate 124 0) ∧
    (1 = (1 : Byte).val + 256 * (0 : Byte).val + 65536 * (0 : Byte).val
      + 16777216 * (0 : Byte).val) ∧
    64 ≤ (1 :: 0 :: 0 :: 0 :: List.replicate 124 (0 : Byte)).length ∧
    load_u32 (1 :: 0 :: 0 :: 0 :: List.replicate 124 (0 : Byte)) 0 = some 1 ∧
    ¬ read_container (1 :: 0 :: 0 :: 0 :: List.replicate 124 (0 : Byte)) = .error .truncated :=
  ⟨rfl, by decide, by simp,
    ((C9_container_reader 1 0 0 0 (List.replicate 124 0) _ 1 rfl (by decide)).2 (by simp)).1,
    fun h => absurd
      ((((C9_container_reader 1 0 0 0 (List.replicate 124 0) _ 1 rfl (by decide)).2
        (by simp)).2.2.1).1 h) (by simp)⟩

/-- C10, as stated, fails: for 2147483648 samples the data size field at offset 40
holds 0, not `2*n`, and the total size field at offset 4 holds 36, not
`44 + 2*n - 8`. -/
theorem C10_size_fields_wrap :
    (List.replicate 2147483648 (0 : Int)).length = 2147483648 ∧
    load_u32 (write_wav_stream (List.replicate 2147483648 0) 1 44100) 4 = some 36 ∧
    load_u32 (write_wav_stream (List.replicate 2147483648 0) 1 44100) 40 = some 0 ∧
    ¬ (load_u32 (write_wav_stream (List.replicate 2147483648 0) 1 44100) 4
          = some (44 + 2 * 2147483648 - 8) ∧
       load_u32 (write_wav_stream (List.replicate 2147483648 0) 1 44100) 40
          = some (2 * 2147483648)) := by
  have h := write_wav_size_fields (List.replicate 2147483648 0) 1 44100
  rw [List.length_replicate] at h
  refine ⟨List.length_replicate _ _, h.1, h.2, ?_⟩
  rw [h.1, h.2]
  decide

/-- C10, amended: for every sample count `n` with `44 + 2*n - 8 < 2^32` (0 included),
the 32-bit total-size field at byte offset 4 of the emitted file equals
`44 + 2*n - 8` and the 32-bit data size field at byte offset 40 equals `2*n`. -/
theorem C10_wav_size_fields (samples : List Int) (nChannels : Int) (sampleRate : Nat)
    (h : 44 + 2 * samples.length - 8 < 4294967296) :
    ∃ file : List Byte, write_wav true samples nChannels sampleRate = some file ∧
      load_u32 file 4 = some (44 + 2 * samples.length - 8) ∧
      load_u32 file 40 = some (2 * samples.length) := by
  obtain ⟨h4, h40⟩ := write_wav_size_fields samples nChannels sampleRate
  refine ⟨_, rfl, ?_, ?_⟩
  · rw [h4]; congr 1; omega
  · rw [h40]; congr 1; omega

theorem C10_wav_size_fields_witness :
    44 + 2 * ([] : List Int).length - 8 < 4294967296 ∧
    ∃ file : List Byte, write_wav true [] 2 44100 = some file ∧
      load_u32 file 4 = some (44 + 2 * ([] : List Int).length - 8) ∧
      load_u32 file 40 = some (2 * ([] : List Int).length) :=
  ⟨by decide, C10_wav_size_fields [] 2 44100 (by decide)⟩

/-! ## The magnitude in closed form -/

theorem step_table_mul8 : ∀ step ∈ STEP_TABLE, step % 8 = 0 := by decide

theorem tableAt_step_mul8 (i : Int) (h0 : 0 ≤ i) (h1 : i ≤ 48) :
    ∃ step, tableAt STEP_TABLE i = some step ∧ step % 8 = 0 ∧ 256 ≤ step ∧
      step ≤ 24832 := by
  obtain ⟨k, rfl⟩ := Int.eq_ofNat_of_zero_le h0
  have hk : k < 49 := by omega
  interval_cases k <;> exact ⟨_, rfl, by decide, by decide, by decide⟩

/-- The low three bits of a nibble as the sum of their weights. -/
theorem low_three_bits (n : Nat) (hn : n < 16) :
    ((n &&& 7 : Nat) : Int) = (if n &&& 1 ≠ 0 then 1 else 0) + (if n &&& 2 ≠ 0 then 2 else 0)
      + (if n &&& 4 ≠ 0 then 4 else 0) := by
  interval_cases n <;> decide

/-- For a step that is a multiple of 8 no shift of the magnitude drops a bit. -/
theorem specMagnitude_exact (step : Int) (n : Nat) (hn : n < 16) (h8 : step % 8 = 0) :
    8 * specMagnitude step n = step * (2 * ((n &&& 7 : Nat) : Int) + 1) := by
  obtain ⟨k, rfl⟩ : ∃ k, step = 8 * k := ⟨step / 8, by omega⟩
  unfold specMagnitude
  simp only [Int.shiftRight_eq_div_pow]
  rw [low_three_bits n hn]
  split_ifs <;> norm_num <;> omega

/-! ## Decoding a concatenation -/

theorem runChannel_append (xs ys : List Nat) : ∀ st : Int × Int,
    runChannel st (xs ++ ys) = runChannel st xs ++ runChannel (runState st xs) ys := by
  induction xs with
  | nil => intro st; rfl
  | cons x xs ih =>
    intro st
    show (specStep st x).1 :: runChannel (specStep st x) (xs ++ ys) = _
    rw [ih]; rfl

theorem nibbleStream_append (xs ys : List Byte) :
    nibbleStream (xs ++ ys) = nibbleStream xs ++ nibbleStream ys := by
  induction xs with
  | nil => rfl
  | cons x xs ih =>
    show (x.val >>> 4) :: (x.val &&& 15) :: nibbleStream (xs ++ ys) = _
    rw [ih]; rfl

theorem interleave_append (xs : List Int) : ∀ (ys xs2 ys2 : List Int), xs.length = ys.length →
    interleave (xs ++ xs2) (ys ++ ys2) = interleave xs ys ++ interleave xs2 ys2 := by
  induction xs with
  | nil =>
    intro ys xs2 ys2 h
    cases ys with
    | nil => cases xs2 <;> cases ys2 <;> rfl
    | cons y ys => simp at h
  | cons x xs ih =>
    intro ys xs2 ys2 h
    cases ys with
    | nil => simp at h
    | cons y ys =>
      simp only [List.length_cons, Nat.add_right_cancel_iff] at h
      show x :: y :: interleave (xs ++ xs2) (ys ++ ys2) = _
      rw [ih ys xs2 ys2 h]; rfl

theorem monoSamples_append (a b : List Byte) :
    monoSamples (a ++ b)
      = monoSamples a ++ runChannel (runState (0, 0) (nibbleStream a)) (nibbleStream b) := by
  unfold monoSamples
  rw [nibbleStream_append, runChannel_append]

theorem stereoSamples_append (a b : List Byte) :
    stereoSamples (a ++ b)
      = stereoSamples a ++ interleave
          (runChannel (runState (0, 0) (highNibbles a)) (highNibbles b))
          (runChannel (runState (0, 0) (lowNibbles a)) (lowNibbles b)) := by
  unfold stereoSamples
  have hh : highNibbles (a ++ b) = highNibbles a ++ highNibbles b := List.map_append _ _ _
  have hl : lowNibbles (a ++ b) = lowNibbles a ++ lowNibbles b := List.map_append _ _ _
  rw [hh, hl, runChannel_append, runChannel_append,
    interleave_append _ _ _ _ (channels_same_length a)]

/-! ## Flipping the sign bits -/

theorem flip_nibble_bits (n : Nat) (hn : n < 16) :
    (n ^^^ 8) &&& 1 = n &&& 1 ∧ (n ^^^ 8) &&& 2 = n &&& 2 ∧ (n ^^^ 8) &&& 4 = n &&& 4 ∧
    ((n ^^^ 8) &&& 8 ≠ 0 ↔ ¬ (n &&& 8 ≠ 0)) ∧
    INDEX_TABLE.getD (n ^^^ 8) 0 = INDEX_TABLE.getD n 0 := by
  interval_cases n <;> decide

theorem clamp_neg (x : Int) : clamp (-x) (-32767) 32767 = -clamp x (-32767) 32767 := by
  unfold clamp
  split_ifs <;> omega

/-- The step on the negated predictor with the sign bit flipped is the negated step. -/
theorem specStep_flip (p i : Int) (n : Nat) (hn : n < 16) :
    specStep (-p, i) (n ^^^ 8) = (-(specStep (p, i) n).1, (specStep (p, i) n).2) := by
  obtain ⟨b1, b2, b4, b8, bi⟩ := flip_nibble_bits n hn
  have hm : specMagnitude (STEP_TABLE.getD i.toNat 0) (n ^^^ 8)
      = specMagnitude (STEP_TABLE.getD i.toNat 0) n := by
    unfold specMagnitude
    rw [b1, b2, b4]
  unfold specStep
  simp only [hm, bi]
  rw [← clamp_neg]
  by_cases h8 : n &&& 8 ≠ 0
  · rw [if_neg (fun h => (b8.1 h) h8), if_pos h8]
    congr 2; omega
  · rw [if_pos (b8.2 h8), if_neg h8]
    congr 2; omega

theorem runChannel_flip (ns : List Nat) : ∀ (p i : Int), (∀ n ∈ ns, n < 16) →
    runChannel (-p, i) (ns.map fun n => n ^^^ 8) = (runChannel (p, i) ns).map fun v => -v := by
  induction ns with
  | nil => intro p i _; rfl
  | cons n ns ih =>
    intro p i h
    have hn : n < 16 := h n (List.mem_cons_self _ _)
    have hns : ∀ m ∈ ns, m < 16 := fun m hm => h m (List.mem_cons_of_mem _ hm)
    have e := specStep_flip p i n hn
    show (specStep (-p, i) (n ^^^ 8)).1 :: runChannel (specStep (-p, i) (n ^^^ 8))
      (ns.map fun n => n ^^^ 8) = _
    rw [e, ih _ _ hns]
    rfl

set_option maxRecDepth 100000 in
theorem flip_signs_hi : ∀ b : Byte, (flip_signs b).val >>> 4 = (b.val >>> 4) ^^^ 8 := by
  decide

set_option maxRecDepth 100000 in
theorem flip_signs_lo : ∀ b : Byte, (flip_signs b).val &&& 15 = (b.val &&& 15) ^^^ 8 := by
  decide

set_option maxRecDepth 100000 in
theorem flip_signs_val : ∀ b : Byte, (flip_signs b).val = b.val ^^^ 0x88 := by
  decide

theorem nibbleStream_flip (bs : List Byte) :
    nibbleStream (bs.map flip_signs) = (nibbleStream bs).map fun n => n ^^^ 8 := by
  induction bs with
  | nil => rfl
  | cons b bs ih =>
    show ((flip_signs b).val >>> 4) :: ((flip_signs b).val &&& 15)
      :: nibbleStream (bs.map flip_signs) = _
    rw [ih, flip_signs_hi, flip_signs_lo]
    rfl

theorem highNibbles_flip (bs : List Byte) :
    highNibbles (bs.map flip_signs) = (highNibbles bs).map fun n => n ^^^ 8 := by
  simp only [highNibbles, List.map_map]
  exact List.map_congr_left fun b _ => flip_signs_hi b

theorem lowNibbles_flip (bs : List Byte) :
    lowNibbles (bs.map flip_signs) = (lowNibbles bs).map fun n => n ^^^ 8 := by
  simp only [lowNibbles, List.map_map]
  exact List.map_congr_left fun b _ => flip_signs_lo b

theorem nibbleStream_lt (bs : List Byte) : ∀ n ∈ nibbleStream bs, n < 16 := by
  induction bs with
  | nil => intro n h; simp [nibbleStream] at h
  | cons b bs ih =>
    intro n h
    simp only [nibbleStream, List.mem_cons] at h
    rcases h with h | h | h
    · rw [h]; exact hi_nibble_lt b
    · rw [h]; exact lo_nibble_lt b
    · exact ih n h

theorem highNibbles_lt (bs : List Byte) : ∀ n ∈ highNibbles bs, n < 16 := by
  intro n h
  obtain ⟨b, -, rfl⟩ := List.mem_map.1 h
  exact hi_nibble_lt b

theorem lowNibbles_lt (bs : List Byte) : ∀ n ∈ lowNibbles bs, n < 16 := by
  intro n h
  obtain ⟨b, -, rfl⟩ := List.mem_map.1 h
  exact lo_nibble_lt b

theorem interleave_map (f : Int → Int) (xs : List Int) : ∀ ys : List Int,
    interleave (xs.map f) (ys.map f) = (interleave xs ys).map f := by
  induction xs with
  | nil => intro ys; cases ys <;> rfl
  | cons x xs ih =>
    intro ys
    cases ys with
    | nil => rfl
    | cons y ys =>
      show f x :: f y :: interleave (xs.map f) (ys.map f) = _
      rw [ih ys]; rfl

theorem monoSamples_flip (bs : List Byte) :
    monoSamples (bs.map flip_signs) = (monoSamples bs).map fun v => -v := by
  unfold monoSamples
  rw [nibbleStream_flip]
  exact runChannel_flip _ 0 0 (nibbleStream_lt bs)

theorem stereoSamples_flip (bs : List Byte) :
    stereoSamples (bs.map flip_signs) = (stereoSamples bs).map fun v => -v := by
  unfold stereoSamples
  rw [highNibbles_flip, lowNibbles_flip, ← interleave_map]
  have h1 := runChannel_flip _ 0 0 (highNibbles_lt bs)
  have h2 := runChannel_flip _ 0 0 (lowNibbles_lt bs)
  rw [neg_zero] at h1 h2
  rw [h1, h2]

/-! ## The step indices and the low three bits -/

theorem index_mirror (n : Nat) (hn : n < 16) :
    tableAt INDEX_TABLE (n : Int) = tableAt INDEX_TABLE ((n &&& 7 : Nat) : Int) ∧
    INDEX_TABLE.getD n 0 = INDEX_TABLE.getD (n &&& 7) 0 := by
  interval_cases n <;> exact ⟨rfl, rfl⟩

/-- The new step index is a function of the old one and of the low three bits. -/
theorem specStep_index (st st2 : Int × Int) (n n2 : Nat) (h : st.2 = st2.2)
    (hn : n < 16) (hn2 : n2 < 16) (hb : n &&& 7 = n2 &&& 7) :
    (specStep st n).2 = (specStep st2 n2).2 := by
  show clamp (st.2 + INDEX_TABLE.getD n 0) 0 48 = clamp (st2.2 + INDEX_TABLE.getD n2 0) 0 48
  rw [(index_mirror n hn).2, (index_mirror n2 hn2).2, hb, h]

theorem runState_index (ns : List Nat) : ∀ (ns2 : List Nat) (st st2 : Int × Int),
    st.2 = st2.2 → (∀ n ∈ ns, n < 16) → (∀ n ∈ ns2, n < 16) →
    (ns.map fun n => n &&& 7) = (ns2.map fun n => n &&& 7) →
    (runState st ns).2 = (runState st2 ns2).2 := by
  induction ns with
  | nil =>
    intro ns2 st st2 h _ _ hm
    cases ns2 with
    | nil => exact h
    | cons m ms => simp at hm
  | cons n ns ih =>
    intro ns2 st st2 h h16 h16b hm
    cases ns2 with
    | nil => simp at hm
    | cons m ms =>
      simp only [List.map_cons, List.cons.injEq] at hm
      exact ih ms _ _
        (specStep_index st st2 n m h (h16 n (List.mem_cons_self _ _))
          (h16b m (List.mem_cons_self _ _)) hm.1)
        (fun a ha => h16 a (List.mem_cons_of_mem _ ha))
        (fun a ha => h16b a (List.mem_cons_of_mem _ ha)) hm.2

theorem nibbleStream_low_bits (bs : List Byte) : ∀ bs2 : List Byte,
    ((highNibbles bs).map fun n => n &&& 7) = ((highNibbles bs2).map fun n => n &&& 7) →
    ((lowNibbles bs).map fun n => n &&& 7) = ((lowNibbles bs2).map fun n => n &&& 7) →
    ((nibbleStream bs).map fun n => n &&& 7) = ((nibbleStream bs2).map fun n => n &&& 7) := by
  induction bs with
  | nil =>
    intro bs2 hh _
    cases bs2 with
    | nil => rfl
    | cons y ys => simp [highNibbles] at hh
  | cons x xs ih =>
    intro bs2 hh hl
    cases bs2 with
    | nil => simp [highNibbles] at hh
    | cons y ys =>
      simp only [highNibbles, lowNibbles, List.map_cons, List.cons.injEq] at hh hl
      have e := ih ys hh.2 hl.2
      simp only [nibbleStream, List.map_cons, List.cons.injEq]
      exact ⟨hh.1, hl.1, e⟩

/-- The state at the head of an iteration, with its step indices in closed form. -/
theorem loop_head_indices (c : Int) (pre : List Byte) (N : Nat) (h : 2 * pre.length ≤ N * 2) :
    ∃ s, decode_loop c (initial_state N) pre = some s ∧ ChanOk (s.predictor_hi, s.idx1) ∧
      ChanOk (s.predictor_lo, s.idx2) ∧ s.pos = 2 * pre.length ∧ s.out.length = N * 2 ∧
      (c = 1 → s.idx1 = (runState (0, 0) (nibbleStream pre)).2 ∧ s.idx2 = 0) ∧
      (c ≠ 1 → s.idx1 = (runState (0, 0) (highNibbles pre)).2 ∧
        s.idx2 = (runState (0, 0) (lowNibbles pre)).2) := by
  have hroom : (initial_state N).pos + 2 * pre.length ≤ (initial_state N).out.length := by
    simp only [initial_state, List.length_replicate]; omega
  by_cases hc : c = 1
  · subst hc
    refine ⟨_, decode_loop_mono pre _ chanOk_fresh hroom, runState_ok _ _ chanOk_fresh,
      chanOk_fresh, ?_, ?_, fun _ => ⟨rfl, rfl⟩, fun h => absurd rfl h⟩
    · simp only [initial_state, Nat.zero_add]
    · simp only [storeAll_length, initial_state, List.length_replicate]
  · refine ⟨_, decode_loop_stereo c hc pre _ chanOk_fresh chanOk_fresh hroom,
      runState_ok _ _ chanOk_fresh, runState_ok _ _ chanOk_fresh, ?_, ?_,
      fun h => absurd h hc, fun _ => ⟨rfl, rfl⟩⟩
    · simp only [initial_state, Nat.zero_add]
    · simp only [storeAll_length, initial_state, List.length_replicate]

set_option maxRecDepth 100000 in
theorem sign_masks_keep_low_bits : ∀ x : Byte,
    (((x.val ^^^ 0x08) >>> 4) &&& 7 = (x.val >>> 4) &&& 7 ∧
      ((x.val ^^^ 0x08) &&& 15) &&& 7 = (x.val &&& 15) &&& 7) ∧
    (((x.val ^^^ 0x80) >>> 4) &&& 7 = (x.val >>> 4) &&& 7 ∧
      ((x.val ^^^ 0x80) &&& 15) &&& 7 = (x.val &&& 15) &&& 7) ∧
    (((x.val ^^^ 0x88) >>> 4) &&& 7 = (x.val >>> 4) &&& 7 ∧
      ((x.val ^^^ 0x88) &&& 15) &&& 7 = (x.val &&& 15) &&& 7) := by
  decide

/-! ## Claims on the tables and on relations between decodings -/

/-- C20: every entry of `STEP_TABLE` is a multiple of 8; for every step index `i` in
[0, 48] and nibble `n`, the magnitude
`(step>>3) + (n&1 ? step>>2 : 0) + (n&2 ? step>>1 : 0) + (n&4 ? step : 0)`, as the
blocks compute it in 32-bit `int`, equals `step * (2*(n & 7) + 1) / 8` with no
truncation, and lies between 32 and 46560; for a predictor `p` in [-32767, 32767]
the sum `p + diff` does not overflow a 32-bit `int`, and the new predictor differs
from `p` unless the clamp saturates. -/
theorem C20_magnitude_exact (i p : Int) (n : Nat) (hi : 0 ≤ i ∧ i ≤ 48) (hn : n < 16)
    (hp : -32767 ≤ p ∧ p ≤ 32767) :
    (∀ step ∈ STEP_TABLE, step % 8 = 0) ∧
    ∃ step magnitude d : Int, tableAt STEP_TABLE i = some step ∧
      magnitude = (step >>> (3 : Nat)) + (if n &&& 1 ≠ 0 then step >>> (2 : Nat) else 0)
        + (if n &&& 2 ≠ 0 then step >>> (1 : Nat) else 0)
        + (if n &&& 4 ≠ 0 then step else 0) ∧
      wrapInt32 (wrapInt32 (wrapInt32
        ((if n &&& 1 ≠ 0 then step >>> (2 : Nat) else 0)
          + (if n &&& 2 ≠ 0 then step >>> (1 : Nat) else 0))
          + (if n &&& 4 ≠ 0 then step else 0))
          + (step >>> (3 : Nat))) = magnitude ∧
      d = (if n &&& 8 ≠ 0 then -magnitude else magnitude) ∧
      8 * magnitude = step * (2 * ((n &&& 7 : Nat) : Int) + 1) ∧
      magnitude = step * (2 * ((n &&& 7 : Nat) : Int) + 1) / 8 ∧
      32 ≤ magnitude ∧ magnitude ≤ 46560 ∧
      -2147483648 ≤ p + d ∧ p + d < 2147483648 ∧ wrapInt32 (p + d) = p + d ∧
      (-32767 ≤ p + d → p + d ≤ 32767 →
        clamp (p + d) (-32767) 32767 = p + d ∧ clamp (p + d) (-32767) 32767 ≠ p) ∧
      (clamp (p + d) (-32767) 32767 = p → p + d < -32767 ∨ 32767 < p + d) := by
  refine ⟨step_table_mul8, ?_⟩
  obtain ⟨step, hs, h8, s0, s1⟩ := tableAt_step_mul8 i hi.1 hi.2
  obtain ⟨e, -, m1⟩ := code_diff_eq step n (by omega) s1
  have hx := specMagnitude_exact step n hn h8
  have hm : specMagnitude step n = (step >>> (3 : Nat))
      + (if n &&& 1 ≠ 0 then step >>> (2 : Nat) else 0)
      + (if n &&& 2 ≠ 0 then step >>> (1 : Nat) else 0)
      + (if n &&& 4 ≠ 0 then step else 0) := rfl
  have hb : 0 ≤ ((n &&& 7 : Nat) : Int) := Int.ofNat_nonneg _
  have h32 : 32 ≤ specMagnitude step n := by nlinarith
  have hd : -46560 ≤ (if n &&& 8 ≠ 0 then -specMagnitude step n else specMagnitude step n)
      ∧ (if n &&& 8 ≠ 0 then -specMagnitude step n else specMagnitude step n) ≤ 46560
      ∧ (if n &&& 8 ≠ 0 then -specMagnitude step n else specMagnitude step n) ≠ 0 := by
    split_ifs <;> omega
  obtain ⟨d0, d1, d2⟩ := hd
  refine ⟨step, specMagnitude step n, _, hs, hm, e, rfl, hx, by omega, h32, m1, by omega,
    by omega, wrapInt32_of_range _ (by omega) (by omega), ?_, ?_⟩
  · intro h0 h1
    unfold clamp
    rw [if_neg (by omega), if_neg (by omega)]
    exact ⟨rfl, by omega⟩
  · intro h
    unfold clamp at h
    split_ifs at h <;> omega

theorem C20_magnitude_exact_witness :
    ((0 : Int) ≤ 48 ∧ (48 : Int) ≤ 48) ∧ 15 < 16 ∧
    ((-32767 : Int) ≤ 32767 ∧ (32767 : Int) ≤ 32767) ∧
    ∀ step ∈ STEP_TABLE, step % 8 = 0 :=
  ⟨by decide, by decide, by decide,
    (C20_magnitude_exact 48 32767 15 (by decide) (by decide) (by decide)).1⟩

/-- C19: for all byte sequences `a` and `b` and every channel count,
`decode_adpcm(a ++ b, c)` begins with the samples of `decode_adpcm(a, c)`: the first
`2*|a|` output samples are the same whatever follows the first `|a|` input bytes. -/
theorem C19_prefix (a : List Byte) (c : Int) :
    ∃ sa : List Int, decode_adpcm a c = some (sa.map some, 2 * a.length) ∧
      sa.length = 2 * a.length ∧
      ∀ b : List Byte, ∃ rest : List Int,
        decode_adpcm (a ++ b) c = some ((sa ++ rest).map some, 2 * (a ++ b).length) ∧
        ((sa ++ rest).map some).take (2 * a.length) = sa.map some := by
  by_cases hc : c = 1
  · subst hc
    refine ⟨_, decode_adpcm_mono a, by rw [monoSamples_length]; omega, ?_⟩
    intro b
    refine ⟨_, by rw [decode_adpcm_mono, monoSamples_append], ?_⟩
    rw [List.map_append, List.take_left' (by rw [List.length_map, monoSamples_length]; omega)]
  · refine ⟨_, decode_adpcm_stereo c hc a, by rw [stereoSamples_length]; omega, ?_⟩
    intro b
    refine ⟨_, by rw [decode_adpcm_stereo c hc, stereoSamples_append], ?_⟩
    rw [List.map_append, List.take_left' (by rw [List.length_map, stereoSamples_length]; omega)]

/-- C18: for every byte sequence `b` and every channel count, decoding the sequence
in which every byte is XOR-ed with 0x88 yields as many samples as decoding `b`,
and every sample is the exact negation of the corresponding sample of
`decode_adpcm(b, c)`, also where the predictor saturates. -/
theorem C18_sign_antisymmetry (b : List Byte) (c : Int) :
    (∀ x : Byte, (flip_signs x).val = x.val ^^^ 0x88) ∧
    ∃ samples : List Int, decode_adpcm b c = some (samples.map some, 2 * b.length) ∧
      decode_adpcm (b.map flip_signs) c
        = some ((samples.map fun v => -v).map some, 2 * b.length) ∧
      (samples.map fun v => -v).length = samples.length := by
  refine ⟨flip_signs_val, ?_⟩
  by_cases hc : c = 1
  · subst hc
    refine ⟨_, decode_adpcm_mono b, ?_, List.length_map _ _⟩
    rw [decode_adpcm_mono, monoSamples_flip, List.length_map]
  · refine ⟨_, decode_adpcm_stereo c hc b, ?_, List.length_map _ _⟩
    rw [decode_adpcm_stereo c hc, stereoSamples_flip, List.length_map]

/-- C17: `INDEX_TABLE[n] = INDEX_TABLE[n & 7]` for every nibble `n` in 0..15, with
`INDEX_TABLE[0..7] = -1, -1, -1, -1, 2, 4, 6, 8`; hence for two byte sequences whose
nibbles agree on their low three bits (as they do when sign bits are flipped) and
every channel count, `decode_adpcm` visits the same step indices: `idx1` and `idx2`
agree at the head of every iteration and between its two blocks. -/
theorem C17_index_mirror (b b2 : List Byte) (c : Int)
    (hhi : ((highNibbles b).map fun n => n &&& 7) = ((highNibbles b2).map fun n => n &&& 7))
    (hlo : ((lowNibbles b).map fun n => n &&& 7) = ((lowNibbles b2).map fun n => n &&& 7)) :
    (∀ n : Nat, n < 16 →
      tableAt INDEX_TABLE (n : Int) = tableAt INDEX_TABLE ((n &&& 7 : Nat) : Int)) ∧
    INDEX_TABLE.take 8 = [-1, -1, -1, -1, 2, 4, 6, 8] ∧
    (∀ x : Byte,
      (((x.val ^^^ 0x08) >>> 4) &&& 7 = (x.val >>> 4) &&& 7 ∧
        ((x.val ^^^ 0x08) &&& 15) &&& 7 = (x.val &&& 15) &&& 7) ∧
      (((x.val ^^^ 0x80) >>> 4) &&& 7 = (x.val >>> 4) &&& 7 ∧
        ((x.val ^^^ 0x80) &&& 15) &&& 7 = (x.val &&& 15) &&& 7) ∧
      (((x.val ^^^ 0x88) >>> 4) &&& 7 = (x.val >>> 4) &&& 7 ∧
        ((x.val ^^^ 0x88) &&& 15) &&& 7 = (x.val &&& 15) &&& 7)) ∧
    ∀ k : Nat, ∃ s t : DecoderState,
      decode_loop c (initial_state b.length) (b.take k) = some s ∧
      decode_loop c (initial_state b2.length) (b2.take k) = some t ∧
      s.idx1 = t.idx1 ∧ s.idx2 = t.idx2 ∧
      ∀ x y : Byte, b[k]? = some x → b2[k]? = some y →
        ∃ s1 t1 : DecoderState, channel1_block s (x.val >>> 4) = some s1 ∧
          channel1_block t (y.val >>> 4) = some t1 ∧
          s1.idx1 = t1.idx1 ∧ s1.idx2 = t1.idx2 := by
  refine ⟨fun n hn => (index_mirror n hn).1, rfl, sign_masks_keep_low_bits, ?_⟩
  intro k
  have hlen : ∀ l : List Byte, 2 * (l.take k).length ≤ l.length * 2 := by
    intro l; rw [List.length_take]; omega
  obtain ⟨s, hs, s1ok, s2ok, spos, sout, smono, sst⟩ :=
    loop_head_indices c (b.take k) b.length (hlen b)
  obtain ⟨t, ht, t1ok, t2ok, tpos, tout, tmono, tst⟩ :=
    loop_head_indices c (b2.take k) b2.length (hlen b2)
  have hhk : ((highNibbles (b.take k)).map fun n => n &&& 7)
      = ((highNibbles (b2.take k)).map fun n => n &&& 7) := by
    simp only [highNibbles, List.map_take] at hhi ⊢
    rw [hhi]
  have hlk : ((lowNibbles (b.take k)).map fun n => n &&& 7)
      = ((lowNibbles (b2.take k)).map fun n => n &&& 7) := by
    simp only [lowNibbles, List.map_take] at hlo ⊢
    rw [hlo]
  have h1 : s.idx1 = t.idx1 := by
    by_cases hc : c = 1
    · rw [(smono hc).1, (tmono hc).1]
      exact runState_index _ _ _ _ rfl (nibbleStream_lt _) (nibbleStream_lt _)
        (nibbleStream_low_bits _ _ hhk hlk)
    · rw [(sst hc).1, (tst hc).1]
      exact runState_index _ _ _ _ rfl (highNibbles_lt _) (highNibbles_lt _) hhk
  have h2 : s.idx2 = t.idx2 := by
    by_cases hc : c = 1
    · rw [(smono hc).2, (tmono hc).2]
    · rw [(sst hc).2, (tst hc).2]
      exact runState_index _ _ _ _ rfl (lowNibbles_lt _) (lowNibbles_lt _) hlk
  refine ⟨s, t, hs, ht, h1, h2, ?_⟩
  intro x y hx hy
  have hkb : k < b.length := (List.getElem?_eq_some_iff.1 hx).1
  have hkb2 : k < b2.length := (List.getElem?_eq_some_iff.1 hy).1
  have hbits : (x.val >>> 4) &&& 7 = (y.val >>> 4) &&& 7 := by
    have e := congrArg (fun l : List Nat => l[k]?) hhi
    simp only [highNibbles, List.getElem?_map, hx, hy, Option.map_some',
      Option.some.injEq] at e
    exact e
  have e1 := channel1_block_eq s (x.val >>> 4) (hi_nibble_lt x) s1ok.1 s1ok.2.1 s1ok.2.2.1
    s1ok.2.2.2 (by rw [spos, sout, List.length_take]; omega)
  have e2 := channel1_block_eq t (y.val >>> 4) (hi_nibble_lt y) t1ok.1 t1ok.2.1 t1ok.2.2.1
    t1ok.2.2.2 (by rw [tpos, tout, List.length_take]; omega)
  exact ⟨_, _, e1, e2,
    specStep_index _ _ _ _ h1 (hi_nibble_lt x) (hi_nibble_lt y) hbits, h2⟩

theorem C17_index_mirror_witness :
    (((highNibbles [0x12]).map fun n => n &&& 7) = ((highNibbles [0x9A]).map fun n => n &&& 7)) ∧
    (((lowNibbles [0x12]).map fun n => n &&& 7) = ((lowNibbles [0x9A]).map fun n => n &&& 7)) ∧
    INDEX_TABLE.take 8 = [-1, -1, -1, -1, 2, 4, 6, 8] :=
  ⟨by decide, by decide, (C17_index_mirror [0x12] [0x9A] 2 (by decide) (by decide)).2.1⟩

/-! ## Records, names and fields -/

theorem value_le_lt (bs : List Byte) : value_le bs < 256 ^ bs.length := by
  induction bs with
  | nil => simp [value_le]
  | cons b bs ih =>
    have hb := b.isLt
    simp only [value_le, List.length_cons, pow_succ]
    omega

theorem value_le_take4_lt (bs : List Byte) : value_le (bs.take 4) < 4294967296 := by
  have h := value_le_lt (bs.take 4)
  have hl : (bs.take 4).length ≤ 4 := by rw [List.length_take]; omega
  have hp : 256 ^ (bs.take 4).length ≤ 256 ^ 4 := Nat.pow_le_pow_right (by decide) hl
  have h4 : (256 : Nat) ^ 4 = 4294967296 := by norm_num
  omega

theorem c_string_of_zero (bs : List Byte) : ∀ k : Nat, bs[k]? = some 0 →
    c_string bs = some (bs.takeWhile fun b => decide (b ≠ 0)) ∧
      (bs.takeWhile fun b => decide (b ≠ 0)).length ≤ k := by
  induction bs with
  | nil => intro k h; simp at h
  | cons b bs ih =>
    intro k h
    by_cases hb : b = 0
    · subst hb
      simp [c_string, List.takeWhile]
    · cases k with
      | zero =>
        simp only [List.getElem?_cons_zero, Option.some.injEq] at h
        exact absurd h hb
      | succ k =>
        simp only [List.getElem?_cons_succ] at h
        obtain ⟨e, hl⟩ := ih k h
        have hd : decide (b ≠ 0) = true := decide_eq_true hb
        simp only [c_string, if_neg hb, e, Option.map_some', List.takeWhile_cons, hd,
          if_true, List.length_cons, true_and]
        omega

theorem wavName_of_recordOk (r : WaveAttributes) (h : RecordOk r) :
    (WaveAttributes.wavName r).length = 28 ∧ (WaveAttributes.wavName r)[27]? = some 0 := by
  obtain ⟨hl, h63⟩ := h
  unfold WaveAttributes.wavName
  refine ⟨by rw [List.length_take, List.length_drop]; omega, ?_⟩
  rw [List.getElem?_take_of_lt (by omega), List.getElem?_drop]
  exact h63

/-- The record the reader stores for any 64 copied bytes. -/
theorem recordOk_set (e : List Byte) (he : e.length = 64) : RecordOk (e.set (36 + 27) 0) := by
  refine ⟨by rw [List.length_set]; exact he, ?_⟩
  rw [List.getElem?_set_self (by omega)]

theorem output_name_of_recordOk (r : WaveAttributes) (i : Nat) (h : RecordOk r) :
    ∃ c0 : Byte, (WaveAttributes.wavName r)[0]? = some c0 ∧
      output_name r i = some ((if c0 ≠ 0
        then (WaveAttributes.wavName r).takeWhile fun b => decide (b ≠ 0)
        else str_wave ++ to_string_u32 i) ++ str_dot_wav) := by
  obtain ⟨hl, h27⟩ := wavName_of_recordOk r h
  have h0 : 0 < (WaveAttributes.wavName r).length := by omega
  refine ⟨(WaveAttributes.wavName r)[0], List.getElem?_eq_getElem h0, ?_⟩
  unfold output_name
  rw [List.getElem?_eq_getElem h0]
  simp only []
  by_cases hc : (WaveAttributes.wavName r)[0] ≠ 0
  · rw [if_pos hc, if_pos hc, (c_string_of_zero _ 27 h27).1]
    rfl
  · rw [if_neg hc, if_neg hc]
    rfl

theorem payload_range_eq (fileSize num_wavs relOffset wavSize : Nat)
    (hn : num_wavs < 4294967296) (ho : relOffset < 4294967296) (hs : wavSize < 4294967296) :
    payload_range fileSize num_wavs relOffset wavSize =
      if 64 + 64 * num_wavs + relOffset + wavSize > fileSize then none
      else some (64 + 64 * num_wavs + relOffset, 64 + 64 * num_wavs + relOffset + wavSize) := by
  have h1 : wavStart num_wavs relOffset = 64 + 64 * num_wavs + relOffset := by
    unfold wavStart audioDataOffset wrapU64; omega
  have h2 : wavEnd num_wavs relOffset wavSize = 64 + 64 * num_wavs + relOffset + wavSize := by
    unfold wavEnd; rw [h1]; unfold wrapU64; omega
  unfold payload_range
  rw [h1, h2]

theorem read_slots_map_some (xs : List Int) : read_slots (xs.map some) = some xs := by
  induction xs with
  | nil => rfl
  | cons x xs ih => simp only [List.map_cons, read_slots, ih, Option.map_some']

/-- The samples `decode_adpcm` hands back for a payload, read from its buffer. -/
theorem decode_adpcm_slots (payload : List Byte) (f : Nat) :
    ∃ samples : List Int,
      samples = (if f &&& 1 ≠ 0 then stereoSamples payload else monoSamples payload) ∧
      decode_adpcm payload (if f &&& 1 ≠ 0 then 2 else 1)
        = some (samples.map some, 2 * payload.length) ∧
      read_slots ((samples.map some).take (2 * payload.length)) = some samples := by
  by_cases hf : f &&& 1 ≠ 0
  · refine ⟨stereoSamples payload, by rw [if_pos hf], ?_, ?_⟩
    · rw [if_pos hf]; exact decode_adpcm_stereo 2 (by decide) payload
    · rw [List.take_of_length_le (by rw [List.length_map, stereoSamples_length]; omega)]
      exact read_slots_map_some _
  · refine ⟨monoSamples payload, by rw [if_neg hf], ?_, ?_⟩
    · rw [if_neg hf]; exact decode_adpcm_mono payload
    · rw [List.take_of_length_le (by rw [List.length_map, monoSamples_length]; omega)]
      exact read_slots_map_some _

/-- One iteration of the export loop in closed form, for a record as the reader
stores it: the iteration never reads outside an array. -/
theorem process_entry_eq (fileBuf : List Byte) (num_wavs : Nat) (opened : Bool) (i : Nat)
    (r : WaveAttributes) (hn : num_wavs < 4294967296) (hr : RecordOk r) :
    ∃ nm : List Byte, output_name r i = some nm ∧
      process_entry fileBuf num_wavs opened i r = some (
        if 64 + 64 * num_wavs + WaveAttributes.offset r + WaveAttributes.wavSize r
            > fileBuf.length then .invalidRange
        else if WaveAttributes.flags r &&& 4 ≠ 0 then
          .exported nm true
            (if WaveAttributes.flags r &&& 1 ≠ 0
              then stereoSamples ((fileBuf.drop (64 + 64 * num_wavs + WaveAttributes.offset r)).take
                (WaveAttributes.wavSize r))
              else monoSamples ((fileBuf.drop (64 + 64 * num_wavs + WaveAttributes.offset r)).take
                (WaveAttributes.wavSize r)))
            (if WaveAttributes.flags r &&& 1 ≠ 0 then 2 else 1) (WaveAttributes.bitrate r)
            (write_wav opened
              (if WaveAttributes.flags r &&& 1 ≠ 0
                then stereoSamples
                  ((fileBuf.drop (64 + 64 * num_wavs + WaveAttributes.offset r)).take
                    (WaveAttributes.wavSize r))
                else monoSamples
                  ((fileBuf.drop (64 + 64 * num_wavs + WaveAttributes.offset r)).take
                    (WaveAttributes.wavSize r)))
              (if WaveAttributes.flags r &&& 1 ≠ 0 then 2 else 1) (WaveAttributes.bitrate r))
        else if WaveAttributes.wavSize r % 2 ≠ 0 then .oddPcmSize
        else
          .exported nm false
            (samples_of_bytes
              ((fileBuf.drop (64 + 64 * num_wavs + WaveAttributes.offset r)).take
                (WaveAttributes.wavSize r)))
            (if WaveAttributes.flags r &&& 1 ≠ 0 then 2 else 1) (WaveAttributes.bitrate r)
            (write_wav opened
              (samples_of_bytes
                ((fileBuf.drop (64 + 64 * num_wavs + WaveAttributes.offset r)).take
                  (WaveAttributes.wavSize r)))
              (if WaveAttributes.flags r &&& 1 ≠ 0 then 2 else 1)
              (WaveAttributes.bitrate r))) := by
  obtain ⟨c0, -, hnm⟩ := output_name_of_recordOk r i hr
  refine ⟨_, hnm, ?_⟩
  have ho : WaveAttributes.offset r < 4294967296 := value_le_take4_lt _
  have hs : WaveAttributes.wavSize r < 4294967296 := value_le_take4_lt _
  unfold process_entry
  simp only [hnm, payload_range_eq _ _ _ _ hn ho hs]
  by_cases hgt : 64 + 64 * num_wavs + WaveAttributes.offset r + WaveAttributes.wavSize r
      > fileBuf.length
  · simp only [if_pos hgt]
  · simp only [if_neg hgt]
    have hm := memcpy_from_some fileBuf (64 + 64 * num_wavs + WaveAttributes.offset r)
      (WaveAttributes.wavSize r) (by omega)
    by_cases h4 : WaveAttributes.flags r &&& 4 ≠ 0
    · obtain ⟨samples, hsm, hdec, hslots⟩ := decode_adpcm_slots
        ((fileBuf.drop (64 + 64 * num_wavs + WaveAttributes.offset r)).take
          (WaveAttributes.wavSize r)) (WaveAttributes.flags r)
      simp only [h4, ne_eq, not_false_eq_true, decide_True, if_true, hm, hdec, hslots, ← hsm]
    · by_cases hodd : WaveAttributes.wavSize r % 2 ≠ 0
      · simp only [h4, decide_False, Bool.false_eq_true, if_false, if_pos hodd]
      · simp only [h4, decide_False, Bool.false_eq_true, if_false, if_neg hodd, hm]

/-! ## The emitted stream -/

theorem spec_wav_header_length (total channels rate byteRate blockAlign dataSize : Nat) :
    (spec_wav_header total channels rate byteRate blockAlign dataSize).length = 44 := by
  simp only [spec_wav_header, List.length_append, tag_RIFF, tag_WAVE, tag_fmt, tag_data,
    bytes_u32, bytes_u16, List.length_cons, List.length_nil]

/-- The stream of `write_wav` is the header with the fields the function computes,
followed by the first `dataChunkSize` bytes of the sample array. -/
theorem write_wav_stream_split (samples : List Int) (nChannels : Int) (sampleRate : Nat) :
    write_wav_stream samples nChannels sampleRate =
      spec_wav_header
        (wrapU32 (wrapU32 (4 + wrapU32 (8 + 16))
          + wrapU32 (8 + wrapU32 (wrapU64 (samples.length * 2)))))
        (nChannels % 65536).toNat sampleRate
        (wrapU32 (sampleRate * ((wrapInt32 (nChannels * (16 : Nat))).tdiv 8 % 65536).toNat))
        ((wrapInt32 (nChannels * (16 : Nat))).tdiv 8 % 65536).toNat
        (wrapU32 (wrapU64 (samples.length * 2)))
      ++ (if samples.length > 0
          then (sample_bytes samples).take (wrapU32 (wrapU64 (samples.length * 2))) else []) := by
  unfold write_wav_stream spec_wav_header
  simp only [List.append_assoc]

theorem sample_bytes_length (samples : List Int) :
    (sample_bytes samples).length = 2 * samples.length := by
  induction samples with
  | nil => rfl
  | cons v vs ih =>
    simp only [sample_bytes, List.length_append, bytes_u16, List.length_cons, List.length_nil, ih]
    omega

/-- When `2 * n` fits in 32 bits the whole sample array is written. -/
theorem write_wav_data_whole (samples : List Int) (h : 2 * samples.length < 4294967296) :
    (if samples.length > 0
      then (sample_bytes samples).take (wrapU32 (wrapU64 (samples.length * 2))) else [])
      = sample_bytes samples := by
  have hd : wrapU32 (wrapU64 (samples.length * 2)) = 2 * samples.length := by
    unfold wrapU32 wrapU64; omega
  by_cases hn : samples.length > 0
  · rw [if_pos hn, hd, List.take_of_length_le (by rw [sample_bytes_length])]
  · rw [if_neg hn]
    have : samples = [] := List.length_eq_zero.1 (by omega)
    rw [this]; rfl

theorem bytes_u16_of_pair (lo hi : Byte) :
    bytes_u16 ((castInt16 ((lo.val : Int) + 256 * (hi.val : Int))) % 65536).toNat = [lo, hi] := by
  have h0 := lo.isLt
  have h1 := hi.isLt
  have hv : ((castInt16 ((lo.val : Int) + 256 * (hi.val : Int))) % 65536).toNat
      = lo.val + 256 * hi.val := by
    unfold castInt16; omega
  have e0 : byteOf (lo.val + 256 * hi.val) = lo :=
    Fin.ext (by show (lo.val + 256 * hi.val) % 256 = lo.val; omega)
  have e1 : byteOf ((lo.val + 256 * hi.val) / 256) = hi :=
    Fin.ext (by show (lo.val + 256 * hi.val) / 256 % 256 = hi.val; omega)
  rw [hv]
  unfold bytes_u16
  rw [e0, e1]

/-- The bytes of the `int16_t` array filled from an even number of bytes are those
bytes again. -/
theorem sample_bytes_of_bytes (n : Nat) : ∀ payload : List Byte, payload.length = 2 * n →
    sample_bytes (samples_of_bytes payload) = payload ∧
      (samples_of_bytes payload).length = n := by
  induction n with
  | zero =>
    intro payload h
    have : payload = [] := List.length_eq_zero.1 (by omega)
    rw [this]; exact ⟨rfl, rfl⟩
  | succ n ih =>
    intro payload h
    match payload, h with
    | lo :: hi :: rest, h =>
      simp only [List.length_cons] at h
      obtain ⟨e, l⟩ := ih rest (by omega)
      simp only [samples_of_bytes, sample_bytes, bytes_u16_of_pair, e, List.cons_append,
        List.nil_append, List.length_cons, l, and_self]

theorem samples_of_bytes_getElem? (n : Nat) : ∀ (payload : List Byte) (k : Nat),
    payload.length = 2 * n → k < n →
    ∃ lo hi : Byte, payload[2 * k]? = some lo ∧ payload[2 * k + 1]? = some hi ∧
      (samples_of_bytes payload)[k]?
        = some (castInt16 ((lo.val : Int) + 256 * (hi.val : Int))) := by
  induction n with
  | zero => intro payload k _ hk; omega
  | succ n ih =>
    intro payload k h hk
    match payload, h with
    | lo :: hi :: rest, h =>
      simp only [List.length_cons] at h
      cases k with
      | zero => exact ⟨lo, hi, by simp, by simp, by simp [samples_of_bytes]⟩
      | succ k =>
        obtain ⟨a, b, ha, hb, hs⟩ := ih rest k (by omega) (by omega)
        refine ⟨a, b, ?_, ?_, ?_⟩
        · have e : 2 * (k + 1) = 2 * k + 1 + 1 := by omega
          rw [e, List.getElem?_cons_succ, List.getElem?_cons_succ]; exact ha
        · have e : 2 * (k + 1) + 1 = (2 * k + 1) + 1 + 1 := by omega
          rw [e, List.getElem?_cons_succ, List.getElem?_cons_succ]; exact hb
        · simp only [samples_of_bytes, List.getElem?_cons_succ]; exact hs

theorem castInt16_of_bytes_u16 (v : Int) (h0 : -32768 ≤ v) (h1 : v ≤ 32767) :
    castInt16 (value_le (bytes_u16 (v % 65536).toNat)) = v := by
  have hv : value_le (bytes_u16 (v % 65536).toNat) = (v % 65536).toNat := by
    simp only [bytes_u16, value_le, byteOf]
    omega
  rw [hv]
  unfold castInt16
  omega

theorem write_wav_stream_length (samples : List Int) (nChannels : Int) (sampleRate : Nat) :
    (write_wav_stream samples nChannels sampleRate).length =
      44 + (if samples.length > 0
        then min (wrapU32 (wrapU64 (samples.length * 2))) (2 * samples.length) else 0) := by
  rw [write_wav_stream_split, List.length_append, spec_wav_header_length]
  by_cases hn : samples.length > 0
  · rw [if_pos hn, if_pos hn, List.length_take, sample_bytes_length]
  · rw [if_neg hn, if_neg hn]; rfl

/-! ## Claims on the export loop and the emitted file -/

/-- C11: for an accepted entry whose compressed flag (bit 2) is clear, the entry is
skipped with no call of `write_wav` if `payloadSize` is odd; if `payloadSize = N` is
even, `write_wav` receives exactly `N/2` samples, sample `k` being the signed 16-bit
little-endian value of payload bytes `2k` and `2k+1`, and the emitted file is a
44-byte header followed by the payload slice, byte for byte. -/
theorem C11_raw_pcm_passthrough (fileBuf : List Byte) (num_wavs : Nat) (opened : Bool)
    (i ws we : Nat) (r : WaveAttributes) (hn : num_wavs < 4294967296) (hr : RecordOk r)
    (hacc : payload_range fileBuf.length num_wavs (WaveAttributes.offset r)
      (WaveAttributes.wavSize r) = some (ws, we))
    (hraw : WaveAttributes.flags r &&& 4 = 0) :
    memcpy_from fileBuf ws (WaveAttributes.wavSize r)
      = some ((fileBuf.drop ws).take (WaveAttributes.wavSize r)) ∧
    ((fileBuf.drop ws).take (WaveAttributes.wavSize r)).length = WaveAttributes.wavSize r ∧
    (WaveAttributes.wavSize r % 2 ≠ 0 →
      process_entry fileBuf num_wavs opened i r = some .oddPcmSize) ∧
    (WaveAttributes.wavSize r % 2 = 0 →
      ∃ (nm : List Byte) (samples : List Int) (header : List Byte),
        process_entry fileBuf num_wavs opened i r = some (.exported nm false samples
          (if WaveAttributes.flags r &&& 1 ≠ 0 then 2 else 1) (WaveAttributes.bitrate r)
          (write_wav opened samples (if WaveAttributes.flags r &&& 1 ≠ 0 then 2 else 1)
            (WaveAttributes.bitrate r))) ∧
        samples.length = WaveAttributes.wavSize r / 2 ∧
        (∀ k, k < WaveAttributes.wavSize r / 2 → ∃ lo hi : Byte,
          ((fileBuf.drop ws).take (WaveAttributes.wavSize r))[2 * k]? = some lo ∧
          ((fileBuf.drop ws).take (WaveAttributes.wavSize r))[2 * k + 1]? = some hi ∧
          samples[k]? = some (castInt16 ((lo.val : Int) + 256 * (hi.val : Int)))) ∧
        header.length = 44 ∧
        write_wav true samples (if WaveAttributes.flags r &&& 1 ≠ 0 then 2 else 1)
          (WaveAttributes.bitrate r)
          = some (header ++ (fileBuf.drop ws).take (WaveAttributes.wavSize r))) := by
  have ho : WaveAttributes.offset r < 4294967296 := value_le_take4_lt _
  have hs : WaveAttributes.wavSize r < 4294967296 := value_le_take4_lt _
  rw [payload_range_eq _ _ _ _ hn ho hs] at hacc
  by_cases hgt : 64 + 64 * num_wavs + WaveAttributes.offset r + WaveAttributes.wavSize r
      > fileBuf.length
  · rw [if_pos hgt] at hacc
    exact absurd hacc (by simp)
  rw [if_neg hgt, Option.some.injEq, Prod.mk.injEq] at hacc
  obtain ⟨hws, -⟩ := hacc
  subst hws
  obtain ⟨nm, -, hpe⟩ := process_entry_eq fileBuf num_wavs opened i r hn hr
  have h4 : ¬ (WaveAttributes.flags r &&& 4 ≠ 0) := fun h => h hraw
  rw [if_neg hgt, if_neg h4] at hpe
  have hlen : ((fileBuf.drop (64 + 64 * num_wavs + WaveAttributes.offset r)).take
      (WaveAttributes.wavSize r)).length = WaveAttributes.wavSize r := by
    rw [List.length_take, List.length_drop]; omega
  refine ⟨memcpy_from_some _ _ _ (by omega), hlen, ?_, ?_⟩
  · intro hodd
    rw [hpe, if_pos hodd]
  · intro heven
    have hodd : ¬ (WaveAttributes.wavSize r % 2 ≠ 0) := fun h => h heven
    rw [if_neg hodd] at hpe
    have hl2 : ((fileBuf.drop (64 + 64 * num_wavs + WaveAttributes.offset r)).take
        (WaveAttributes.wavSize r)).length = 2 * (WaveAttributes.wavSize r / 2) := by
      rw [hlen]; omega
    obtain ⟨hbytes, hcount⟩ := sample_bytes_of_bytes _ _ hl2
    have hw := write_wav_stream_split
      (samples_of_bytes ((fileBuf.drop (64 + 64 * num_wavs + WaveAttributes.offset r)).take
        (WaveAttributes.wavSize r)))
      (if WaveAttributes.flags r &&& 1 ≠ 0 then 2 else 1) (WaveAttributes.bitrate r)
    rw [write_wav_data_whole _ (by rw [hcount]; omega), hbytes] at hw
    exact ⟨nm, _, _, hpe, hcount, fun k hk => samples_of_bytes_getElem? _ _ k hl2 hk,
      spec_wav_header_length _ _ _ _ _ _, by unfold write_wav; rw [if_pos rfl, hw]⟩

theorem C11_raw_pcm_passthrough_witness :
    1 < 4294967296 ∧
    RecordOk (List.replicate 24 0 ++ [2, 0, 0, 0] ++ List.replicate 36 0) ∧
    payload_range (List.replicate 130 (0 : Byte)).length 1
      (WaveAttributes.offset (List.replicate 24 0 ++ [2, 0, 0, 0] ++ List.replicate 36 0))
      (WaveAttributes.wavSize (List.replicate 24 0 ++ [2, 0, 0, 0] ++ List.replicate 36 0))
      = some (128, 130) ∧
    WaveAttributes.flags (List.replicate 24 0 ++ [2, 0, 0, 0] ++ List.replicate 36 0) &&& 4 = 0 ∧
    memcpy_from (List.replicate 130 (0 : Byte)) 128
      (WaveAttributes.wavSize (List.replicate 24 0 ++ [2, 0, 0, 0] ++ List.replicate 36 0))
      = some (((List.replicate 130 (0 : Byte)).drop 128).take
        (WaveAttributes.wavSize (List.replicate 24 0 ++ [2, 0, 0, 0] ++ List.replicate 36 0))) :=
  ⟨by decide, ⟨by rfl, by rfl⟩, by rfl, by rfl,
    (C11_raw_pcm_passthrough (List.replicate 130 0) 1 true 0 128 130
      (List.replicate 24 0 ++ [2, 0, 0, 0] ++ List.replicate 36 0) (by decide)
      ⟨by rfl, by rfl⟩ (by rfl) (by rfl)).1⟩

/-- C12, as stated, fails: for 2147483648 samples the stream `write_wav` writes is
44 bytes long, not `44 + 2*n`. -/
theorem C12_stream_length_wrap :
    (List.replicate 2147483648 (0 : Int)).length = 2147483648 ∧
    (write_wav_stream (List.replicate 2147483648 0) 1 44100).length = 44 ∧
    ¬ ((write_wav_stream (List.replicate 2147483648 0) 1 44100).length
        = 44 + 2 * 2147483648) := by
  have h := write_wav_stream_length (List.replicate 2147483648 0) 1 44100
  rw [List.length_replicate] at h
  have e : (44 + (if 2147483648 > 0
      then min (wrapU32 (wrapU64 (2147483648 * 2))) (2 * 2147483648) else 0)) = 44 := by
    decide
  rw [e] at h
  refine ⟨List.length_replicate _ _, h, ?_⟩
  rw [h]
  decide

/-- C12, amended: for every sample sequence of length `n` with `2*n < 2^32`, channel
count `c` in {1, 2} and 32-bit sample rate `r`, the stream written by `write_wav` is
exactly `44 + 2*n` bytes: `RIFF`, total size `(36 + 2*n) mod 2^32`, `WAVE`, `fmt `,
format-block size 16, encoding 1, channel count `c` as 16-bit, sample rate `r`, byte
rate `(r * 2*c) mod 2^32`, block alignment `2*c`, bits per sample 16, `data`, data
size `2*n`, followed by the samples as little-endian 16-bit values in order; for
`n = 0` the stream is the 44-byte header with data size 0. -/
theorem C12_wav_layout (samples : List Int) (c : Int) (r : Nat) (hc : c = 1 ∨ c = 2)
    (hr : r < 4294967296) (hn : 2 * samples.length < 4294967296) :
    ∃ file : List Byte, write_wav true samples c r = some file ∧
      file = spec_wav_header ((36 + 2 * samples.length) % 4294967296) c.toNat r
          ((r * (2 * c.toNat)) % 4294967296) (2 * c.toNat) (2 * samples.length)
        ++ sample_bytes samples ∧
      file.length = 44 + 2 * samples.length ∧
      (samples.length = 0 →
        file = spec_wav_header 36 c.toNat r ((r * (2 * c.toNat)) % 4294967296) (2 * c.toNat) 0) ∧
      value_le (bytes_u32 r) = r ∧
      (∀ v : Int, -32768 ≤ v → v ≤ 32767 →
        castInt16 (value_le (bytes_u16 (v % 65536).toNat)) = v) := by
  have hd : wrapU32 (wrapU64 (samples.length * 2)) = 2 * samples.length := by
    unfold wrapU32 wrapU64; omega
  have ht : wrapU32 (wrapU32 (4 + wrapU32 (8 + 16)) + wrapU32 (8 + 2 * samples.length))
      = (36 + 2 * samples.length) % 4294967296 := by
    unfold wrapU32; omega
  have hfields : (c % 65536).toNat = c.toNat ∧
      ((wrapInt32 (c * (16 : Nat))).tdiv 8 % 65536).toNat = 2 * c.toNat := by
    rcases hc with rfl | rfl <;> exact ⟨by decide, by decide⟩
  have hw := write_wav_stream_split samples c r
  rw [write_wav_data_whole samples hn, hd, ht, hfields.1, hfields.2] at hw
  unfold wrapU32 at hw
  have hrate : value_le (bytes_u32 r) = r := by rw [value_le_bytes_u32]; omega
  refine ⟨_, by unfold write_wav; rw [if_pos rfl, hw], rfl, ?_, ?_, hrate,
    castInt16_of_bytes_u16⟩
  · rw [List.length_append, spec_wav_header_length, sample_bytes_length]
  · intro h0
    have he : samples = [] := List.length_eq_zero.1 h0
    subst he
    simp only [sample_bytes, List.append_nil, List.length_nil, Nat.mul_zero, Nat.add_zero]

theorem C12_wav_layout_witness :
    ((2 : Int) = 1 ∨ (2 : Int) = 2) ∧ 44100 < 4294967296 ∧
    2 * ([] : List Int).length < 4294967296 ∧
    ∃ file : List Byte, write_wav true [] 2 44100 = some file ∧
      file = spec_wav_header ((36 + 2 * ([] : List Int).length) % 4294967296) (2 : Int).toNat
          44100 ((44100 * (2 * (2 : Int).toNat)) % 4294967296) (2 * (2 : Int).toNat)
          (2 * ([] : List Int).length)
        ++ sample_bytes [] :=
  ⟨by decide, by decide, by decide,
    (C12_wav_layout [] 2 44100 (by decide) (by decide) (by decide)).elim
      fun file h => ⟨file, h.1, h.2.1⟩⟩

/-! ## The export loop as a whole -/

/-- Whether the output stream opens changes nothing but the file written. -/
theorem process_entry_request (fileBuf : List Byte) (num_wavs : Nat) (o o2 : Bool) (i : Nat)
    (r : WaveAttributes) (hn : num_wavs < 4294967296) (hr : RecordOk r) :
    (process_entry fileBuf num_wavs o i r).map EntryOutcome.request
      = (process_entry fileBuf num_wavs o2 i r).map EntryOutcome.request := by
  obtain ⟨nm, h1, e1⟩ := process_entry_eq fileBuf num_wavs o i r hn hr
  obtain ⟨nm2, h2, e2⟩ := process_entry_eq fileBuf num_wavs o2 i r hn hr
  rw [h1, Option.some.injEq] at h2
  subst h2
  rw [e1, e2]
  simp only [Option.map_some', Option.some.injEq]
  split_ifs <;> rfl

/-- The export loop over records as the reader stores them: every iteration
completes, and outcome `k` is that of iteration `i0 + k` on record `k`. -/
theorem export_entries_ok (fileBuf : List Byte) (num_wavs : Nat) (opened : Nat → Bool)
    (hn : num_wavs < 4294967296) (entries : List WaveAttributes) : ∀ i0 : Nat,
    (∀ r ∈ entries, RecordOk r) →
    ∃ os : List EntryOutcome, export_entries fileBuf num_wavs opened i0 entries = some os ∧
      os.length = entries.length ∧
      ∀ (k : Nat) (r : WaveAttributes), entries[k]? = some r →
        (os[k]?) = process_entry fileBuf num_wavs (opened (i0 + k)) (i0 + k) r := by
  induction entries with
  | nil => intro i0 _; exact ⟨[], rfl, rfl, fun k r h => by simp at h⟩
  | cons e rest ih =>
    intro i0 hok
    obtain ⟨nm, -, he⟩ := process_entry_eq fileBuf num_wavs (opened i0) i0 e hn
      (hok e (List.mem_cons_self _ _))
    obtain ⟨os, hos, hlen, hk⟩ := ih (i0 + 1) fun r hr => hok r (List.mem_cons_of_mem _ hr)
    refine ⟨_ :: os, by rw [export_entries, he, hos]; rfl, by simp only [List.length_cons, hlen],
      ?_⟩
    intro k r hkr
    cases k with
    | zero =>
      simp only [List.getElem?_cons_zero, Option.some.injEq] at hkr
      subst hkr
      simp only [List.getElem?_cons_zero, Nat.add_zero, he]
    | succ k =>
      simp only [List.getElem?_cons_succ] at hkr ⊢
      have e := hk k r hkr
      have ea : i0 + 1 + k = i0 + (k + 1) := by omega
      rw [ea] at e
      exact e

/-- C13: the run after container validation and directory creation, as a function
of the buffer and the records (here for two lists of records and two behaviours of
the output streams): the outcome of entry `i` is that of one iteration on the
buffer, the entry count (which fixes the payload-region start), the index and
record `i`; it is the same in both runs whenever record `i` is, whatever the other
entries are and do, up to the file written, and entirely if the output stream of
entry `i` behaves the same; the exit status is 0 for every list of outcomes. -/
theorem C13_entry_isolation (fileBuf : List Byte) (num_wavs : Nat) (opened opened2 : Nat → Bool)
    (entries entries2 : List WaveAttributes) (hn : num_wavs < 4294967296)
    (hok : ∀ r ∈ entries, RecordOk r) (hok2 : ∀ r ∈ entries2, RecordOk r) :
    ∃ outcomes outcomes2 : List EntryOutcome,
      export_run fileBuf num_wavs opened entries = some (outcomes, 0) ∧
      export_run fileBuf num_wavs opened2 entries2 = some (outcomes2, 0) ∧
      outcomes.length = entries.length ∧
      (∀ (i : Nat) (r : WaveAttributes), entries[i]? = some r →
        outcomes[i]? = process_entry fileBuf num_wavs (opened i) i r) ∧
      (∀ i : Nat, entries[i]? = entries2[i]? →
        outcomes[i]?.map EntryOutcome.request = outcomes2[i]?.map EntryOutcome.request ∧
        (opened i = opened2 i → outcomes[i]? = outcomes2[i]?)) := by
  obtain ⟨os, hos, hlen, hk⟩ := export_entries_ok fileBuf num_wavs opened hn entries 0 hok
  obtain ⟨os2, hos2, hlen2, hk2⟩ :=
    export_entries_ok fileBuf num_wavs opened2 hn entries2 0 hok2
  refine ⟨os, os2, by unfold export_run; rw [hos]; rfl, by unfold export_run; rw [hos2]; rfl,
    hlen, fun i r h => by have e := hk i r h; rwa [Nat.zero_add] at e, ?_⟩
  intro i hi
  cases hr : entries[i]? with
  | none =>
    have h2 : entries2[i]? = none := by rw [← hi, hr]
    have l1 : os[i]? = none := by
      rw [List.getElem?_eq_none_iff] at hr ⊢; omega
    have l2 : os2[i]? = none := by
      rw [List.getElem?_eq_none_iff] at h2 ⊢; omega
    rw [l1, l2]
    exact ⟨rfl, fun _ => rfl⟩
  | some r =>
    have h2 : entries2[i]? = some r := by rw [← hi, hr]
    have e1 := hk i r hr
    have e2 := hk2 i r h2
    rw [Nat.zero_add] at e1 e2
    have hrok : RecordOk r := hok r (List.getElem?_mem hr)
    rw [e1, e2]
    exact ⟨process_entry_request fileBuf num_wavs _ _ i r hn hrok, fun ho => by rw [ho]⟩

theorem C13_entry_isolation_witness :
    1 < 4294967296 ∧ (∀ r ∈ [List.replicate 64 (0 : Byte)], RecordOk r) ∧
    (∀ r ∈ ([] : List WaveAttributes), RecordOk r) ∧
    ∃ outcomes outcomes2 : List EntryOutcome,
      export_run (List.replicate 128 0) 1 (fun _ => true) [List.replicate 64 (0 : Byte)]
        = some (outcomes, 0) ∧
      export_run (List.replicate 128 0) 1 (fun _ => false) [] = some (outcomes2, 0) :=
  ⟨by decide, fun r hr => by rw [List.mem_singleton.1 hr]; exact ⟨by rfl, by rfl⟩,
    fun r hr => absurd hr (List.not_mem_nil r),
    (C13_entry_isolation (List.replicate 128 0) 1 (fun _ => true) (fun _ => false)
      [List.replicate 64 (0 : Byte)] [] (by decide)
      (fun r hr => by rw [List.mem_singleton.1 hr]; exact ⟨by rfl, by rfl⟩)
      (fun r hr => absurd hr (List.not_mem_nil r))).elim
      fun o h => h.elim fun o2 h => ⟨o, o2, h.1, h.2.1⟩⟩

/-- C14: for every buffer of at least 64 bytes whose first four bytes are zero,
whatever the remaining bytes, the entry count is 0, container validation succeeds
with no record, the payload-region start is 64, the export loop processes no entry
and exports no file, and the exit status is 0 when the output directory is
created. -/
theorem C14_empty_container (rest : List Byte) (opened : Nat → Bool)
    (h : 64 ≤ (0 :: 0 :: 0 :: 0 :: rest : List Byte).length) :
    load_u32 (0 :: 0 :: 0 :: 0 :: rest) 0 = some 0 ∧
    read_container (0 :: 0 :: 0 :: 0 :: rest) = .ok [] ∧
    audioDataOffset 0 = 64 ∧
    export_run (0 :: 0 :: 0 :: 0 :: rest) 0 opened [] = some ([], 0) ∧
    main_run (0 :: 0 :: 0 :: 0 :: rest) true opened = some (0, []) := by
  have hl : load_u32 (0 :: 0 :: 0 :: 0 :: rest) 0 = some 0 := by
    rw [load_u32_zero]; rfl
  have hv : value_le [(0 : Byte), 0, 0, 0] = 0 := rfl
  have hr : read_container (0 :: 0 :: 0 :: 0 :: rest) = .ok [] := by
    rw [read_container_eq 0 0 0 0 rest h, hv, if_neg (by omega)]
    rfl
  refine ⟨hl, hr, by decide, rfl, ?_⟩
  unfold main_run
  rw [hr]
  simp only [hl, if_true]
  rfl

theorem C14_empty_container_witness :
    64 ≤ (0 :: 0 :: 0 :: 0 :: List.replicate 60 (7 : Byte) : List Byte).length ∧
    main_run (0 :: 0 :: 0 :: 0 :: List.replicate 60 7) true (fun _ => true) = some (0, []) :=
  ⟨by simp, (C14_empty_container (List.replicate 60 7) (fun _ => true) (by simp)).2.2.2.2⟩

/-! ## Flags and names -/

/-- The channel count field, bytes 22 and 23 of the stream `write_wav` writes. -/
theorem write_wav_channel_field (samples : List Int) (nChannels : Int) (sampleRate : Nat) :
    ((write_wav_stream samples nChannels sampleRate).drop 22).take 2
      = bytes_u16 (nChannels % 65536).toNat := by
  rw [write_wav_stream_split]
  simp only [spec_wav_header, tag_RIFF, tag_WAVE, tag_fmt, bytes_u32, bytes_u16,
    List.cons_append, List.nil_append, List.append_assoc, List.drop_succ_cons, List.drop_zero,
    List.take_succ_cons, List.take_zero]

/-- An iteration reads the record only through `offset`, `wavSize`, `bitrate`,
`wavName` and bits 0 and 2 of `flags`. -/
theorem process_entry_congr (fileBuf : List Byte) (num_wavs : Nat) (opened : Bool) (i : Nat)
    (r r2 : WaveAttributes)
    (ho : WaveAttributes.offset r2 = WaveAttributes.offset r)
    (hs : WaveAttributes.wavSize r2 = WaveAttributes.wavSize r)
    (hb : WaveAttributes.bitrate r2 = WaveAttributes.bitrate r)
    (hname : WaveAttributes.wavName r2 = WaveAttributes.wavName r)
    (h1 : WaveAttributes.flags r2 &&& 1 = WaveAttributes.flags r &&& 1)
    (h4 : WaveAttributes.flags r2 &&& 4 = WaveAttributes.flags r &&& 4) :
    process_entry fileBuf num_wavs opened i r2 = process_entry fileBuf num_wavs opened i r := by
  simp only [process_entry, output_name, ho, hs, hb, hname, h1, h4]

theorem wavStart_exact (num_wavs relOffset : Nat) (hn : num_wavs < 4294967296)
    (ho : relOffset < 4294967296) :
    wavStart num_wavs relOffset = 64 + 64 * num_wavs + relOffset := by
  unfold wavStart audioDataOffset wrapU64; omega

theorem write_wav_channel_bytes (opened : Bool) (samples : List Int) (f rate : Nat)
    (stream : List Byte)
    (h : write_wav opened samples (if f &&& 1 ≠ 0 then 2 else 1) rate = some stream) :
    (stream.drop 22).take 2 = bytes_u16 (if f &&& 1 ≠ 0 then (2 : Int) else 1).toNat := by
  unfold write_wav at h
  by_cases ho : opened = true
  · rw [if_pos ho, Option.some.injEq] at h
    rw [← h, write_wav_channel_field]
    by_cases hf : f &&& 1 ≠ 0
    · rw [if_pos hf]; rfl
    · rw [if_neg hf]; rfl
  · rw [if_neg ho] at h
    exact absurd h (by simp)

/-- What an iteration does with an entry, by its range and its flag bits 2 and 0:
rejected ranges are skipped; an accepted entry with bit 2 set is decoded by
`decode_adpcm` and exported whatever the parity of its size; with bit 2 clear it is
skipped if its size is odd and exported as raw PCM if it is even. -/
theorem process_entry_dispatch (fileBuf : List Byte) (num_wavs : Nat) (opened : Bool) (i : Nat)
    (r : WaveAttributes) (hn : num_wavs < 4294967296) (hr : RecordOk r) :
    (payload_range fileBuf.length num_wavs (WaveAttributes.offset r)
        (WaveAttributes.wavSize r) = none →
      process_entry fileBuf num_wavs opened i r = some .invalidRange) ∧
    (∀ ws we : Nat,
      payload_range fileBuf.length num_wavs (WaveAttributes.offset r)
        (WaveAttributes.wavSize r) = some (ws, we) →
      ws = wavStart num_wavs (WaveAttributes.offset r) ∧
      ((fileBuf.drop ws).take (WaveAttributes.wavSize r)).length = WaveAttributes.wavSize r ∧
      ∃ nm : List Byte, output_name r i = some nm ∧
        (WaveAttributes.flags r &&& 4 ≠ 0 →
          ∃ samples : List Int,
            decode_adpcm ((fileBuf.drop ws).take (WaveAttributes.wavSize r))
              (if WaveAttributes.flags r &&& 1 ≠ 0 then 2 else 1)
              = some (samples.map some, 2 * WaveAttributes.wavSize r) ∧
            samples.length = 2 * WaveAttributes.wavSize r ∧
            process_entry fileBuf num_wavs opened i r = some (.exported nm true samples
              (if WaveAttributes.flags r &&& 1 ≠ 0 then 2 else 1) (WaveAttributes.bitrate r)
              (write_wav opened samples (if WaveAttributes.flags r &&& 1 ≠ 0 then 2 else 1)
                (WaveAttributes.bitrate r))) ∧
            ((write_wav_stream samples (if WaveAttributes.flags r &&& 1 ≠ 0 then 2 else 1)
                (WaveAttributes.bitrate r)).drop 22).take 2
              = bytes_u16 (if WaveAttributes.flags r &&& 1 ≠ 0 then (2 : Int) else 1).toNat) ∧
        (WaveAttributes.flags r &&& 4 = 0 → WaveAttributes.wavSize r % 2 = 0 →
          process_entry fileBuf num_wavs opened i r = some (.exported nm false
            (samples_of_bytes ((fileBuf.drop ws).take (WaveAttributes.wavSize r)))
            (if WaveAttributes.flags r &&& 1 ≠ 0 then 2 else 1) (WaveAttributes.bitrate r)
            (write_wav opened
              (samples_of_bytes ((fileBuf.drop ws).take (WaveAttributes.wavSize r)))
              (if WaveAttributes.flags r &&& 1 ≠ 0 then 2 else 1)
              (WaveAttributes.bitrate r))) ∧
          ((write_wav_stream
              (samples_of_bytes ((fileBuf.drop ws).take (WaveAttributes.wavSize r)))
              (if WaveAttributes.flags r &&& 1 ≠ 0 then 2 else 1)
              (WaveAttributes.bitrate r)).drop 22).take 2
            = bytes_u16 (if WaveAttributes.flags r &&& 1 ≠ 0 then (2 : Int) else 1).toNat) ∧
        (WaveAttributes.flags r &&& 4 = 0 → WaveAttributes.wavSize r % 2 ≠ 0 →
          process_entry fileBuf num_wavs opened i r = some .oddPcmSize)) := by
  have ho : WaveAttributes.offset r < 4294967296 := value_le_take4_lt _
  have hs : WaveAttributes.wavSize r < 4294967296 := value_le_take4_lt _
  obtain ⟨nm, hnm, hpe⟩ := process_entry_eq fileBuf num_wavs opened i r hn hr
  rw [payload_range_eq _ _ _ _ hn ho hs]
  by_cases hgt : 64 + 64 * num_wavs + WaveAttributes.offset r + WaveAttributes.wavSize r
      > fileBuf.length
  · rw [if_pos hgt] at hpe ⊢
    exact ⟨fun _ => hpe, fun ws we h => absurd h (by simp)⟩
  rw [if_neg hgt] at hpe ⊢
  refine ⟨fun h => absurd h (by simp), ?_⟩
  intro ws we hse
  rw [Option.some.injEq, Prod.mk.injEq] at hse
  obtain ⟨hws, -⟩ := hse
  subst hws
  have hlen : ((fileBuf.drop (64 + 64 * num_wavs + WaveAttributes.offset r)).take
      (WaveAttributes.wavSize r)).length = WaveAttributes.wavSize r := by
    rw [List.length_take, List.length_drop]; omega
  refine ⟨(wavStart_exact num_wavs _ hn ho).symm, hlen, nm, hnm, ?_, ?_, ?_⟩
  · intro h4
    rw [if_pos h4] at hpe
    obtain ⟨smp, hsmp, hdec, -⟩ := decode_adpcm_slots
      ((fileBuf.drop (64 + 64 * num_wavs + WaveAttributes.offset r)).take
        (WaveAttributes.wavSize r)) (WaveAttributes.flags r)
    rw [← hsmp] at hpe
    rw [hlen] at hdec
    have hcount : smp.length = 2 * WaveAttributes.wavSize r := by
      rw [hsmp]
      by_cases hf : WaveAttributes.flags r &&& 1 ≠ 0
      · rw [if_pos hf, stereoSamples_length, hlen]; omega
      · rw [if_neg hf, monoSamples_length, hlen]; omega
    exact ⟨smp, hdec, hcount, hpe,
      write_wav_channel_bytes true _ _ _ _ (by unfold write_wav; rw [if_pos rfl])⟩
  · intro h4 heven
    rw [if_neg (fun h => h h4), if_neg (fun h => h heven)] at hpe
    exact ⟨hpe, write_wav_channel_bytes true _ _ _ _ (by unfold write_wav; rw [if_pos rfl])⟩
  · intro h4 hodd
    rw [if_neg (fun h => h h4), if_pos hodd] at hpe
    exact hpe

/-- C15: for every record as the reader stores it (its `flags` a 32-bit value), the
channel count used for decoding and written to the header of the output is 2 if
bit 0 of `flags` is set and 1 otherwise; the payload goes through `decode_adpcm`
exactly when bit 2 is set and is reinterpreted as raw PCM otherwise; and a record
that agrees on `offset`, `wavSize`, `bitrate`, `wavName` and on bits 0 and 2 of
`flags` gives the same outcome, whatever its other flag bits and other fields.
The outcome is pinned case by case: a rejected range is skipped; an accepted entry
with bit 2 set is exported with the samples `decode_adpcm` returns for its payload
and that channel count, whatever the parity of its size; an accepted entry with
bit 2 clear is exported with the raw reinterpretation of its payload if its size
is even and skipped if it is odd; bytes 22 and 23 of the stream written hold the
channel count. -/
theorem C15_flag_dispatch (fileBuf : List Byte) (num_wavs : Nat) (opened : Bool) (i : Nat)
    (r r2 : WaveAttributes) (hn : num_wavs < 4294967296) (hr : RecordOk r) :
    WaveAttributes.flags r < 4294967296 ∧
    (∃ o : EntryOutcome, process_entry fileBuf num_wavs opened i r = some o ∧
      ∀ (nm : List Byte) (decoded : Bool) (samples : List Int) (nCh : Int) (rate : Nat)
        (file : Option (List Byte)), o = .exported nm decoded samples nCh rate file →
        nCh = (if WaveAttributes.flags r &&& 1 ≠ 0 then 2 else 1) ∧ (nCh = 1 ∨ nCh = 2) ∧
        (decoded = true ↔ WaveAttributes.flags r &&& 4 ≠ 0) ∧
        file = write_wav opened samples nCh rate ∧
        (∀ stream : List Byte, file = some stream →
          (stream.drop 22).take 2 = bytes_u16 nCh.toNat) ∧
        (decoded = true →
          decode_adpcm ((fileBuf.drop (wavStart num_wavs (WaveAttributes.offset r))).take
              (WaveAttributes.wavSize r)) nCh
            = some (samples.map some,
                2 * ((fileBuf.drop (wavStart num_wavs (WaveAttributes.offset r))).take
                  (WaveAttributes.wavSize r)).length)) ∧
        (decoded = false →
          samples = samples_of_bytes
            ((fileBuf.drop (wavStart num_wavs (WaveAttributes.offset r))).take
              (WaveAttributes.wavSize r)))) ∧
    (WaveAttributes.offset r2 = WaveAttributes.offset r →
      WaveAttributes.wavSize r2 = WaveAttributes.wavSize r →
      WaveAttributes.bitrate r2 = WaveAttributes.bitrate r →
      WaveAttributes.wavName r2 = WaveAttributes.wavName r →
      WaveAttributes.flags r2 &&& 1 = WaveAttributes.flags r &&& 1 →
      WaveAttributes.flags r2 &&& 4 = WaveAttributes.flags r &&& 4 →
      process_entry fileBuf num_wavs opened i r2
        = process_entry fileBuf num_wavs opened i r) ∧
    (payload_range fileBuf.length num_wavs (WaveAttributes.offset r)
        (WaveAttributes.wavSize r) = none →
      process_entry fileBuf num_wavs opened i r = some .invalidRange) ∧
    (∀ ws we : Nat,
      payload_range fileBuf.length num_wavs (WaveAttributes.offset r)
        (WaveAttributes.wavSize r) = some (ws, we) →
      ws = wavStart num_wavs (WaveAttributes.offset r) ∧
      ((fileBuf.drop ws).take (WaveAttributes.wavSize r)).length = WaveAttributes.wavSize r ∧
      ∃ nm : List Byte, output_name r i = some nm ∧
        (WaveAttributes.flags r &&& 4 ≠ 0 →
          ∃ samples : List Int,
            decode_adpcm ((fileBuf.drop ws).take (WaveAttributes.wavSize r))
              (if WaveAttributes.flags r &&& 1 ≠ 0 then 2 else 1)
              = some (samples.map some, 2 * WaveAttributes.wavSize r) ∧
            samples.length = 2 * WaveAttributes.wavSize r ∧
            process_entry fileBuf num_wavs opened i r = some (.exported nm true samples
              (if WaveAttributes.flags r &&& 1 ≠ 0 then 2 else 1) (WaveAttributes.bitrate r)
              (write_wav opened samples (if WaveAttributes.flags r &&& 1 ≠ 0 then 2 else 1)
                (WaveAttributes.bitrate r))) ∧
            ((write_wav_stream samples (if WaveAttributes.flags r &&& 1 ≠ 0 then 2 else 1)
                (WaveAttributes.bitrate r)).drop 22).take 2
              = bytes_u16 (if WaveAttributes.flags r &&& 1 ≠ 0 then (2 : Int) else 1).toNat) ∧
        (WaveAttributes.flags r &&& 4 = 0 → WaveAttributes.wavSize r % 2 = 0 →
          process_entry fileBuf num_wavs opened i r = some (.exported nm false
            (samples_of_bytes ((fileBuf.drop ws).take (WaveAttributes.wavSize r)))
            (if WaveAttributes.flags r &&& 1 ≠ 0 then 2 else 1) (WaveAttributes.bitrate r)
            (write_wav opened
              (samples_of_bytes ((fileBuf.drop ws).take (WaveAttributes.wavSize r)))
              (if WaveAttributes.flags r &&& 1 ≠ 0 then 2 else 1)
              (WaveAttributes.bitrate r))) ∧
          ((write_wav_stream
              (samples_of_bytes ((fileBuf.drop ws).take (WaveAttributes.wavSize r)))
              (if WaveAttributes.flags r &&& 1 ≠ 0 then 2 else 1)
              (WaveAttributes.bitrate r)).drop 22).take 2
            = bytes_u16 (if WaveAttributes.flags r &&& 1 ≠ 0 then (2 : Int) else 1).toNat) ∧
        (WaveAttributes.flags r &&& 4 = 0 → WaveAttributes.wavSize r % 2 ≠ 0 →
          process_entry fileBuf num_wavs opened i r = some .oddPcmSize)) := by
  have hoff : WaveAttributes.offset r < 4294967296 := value_le_take4_lt _
  obtain ⟨nm0, -, hpe⟩ := process_entry_eq fileBuf num_wavs opened i r hn hr
  obtain ⟨hrej, hacc⟩ := process_entry_dispatch fileBuf num_wavs opened i r hn hr
  refine ⟨value_le_take4_lt _, ⟨_, hpe, ?_⟩,
    fun a b c d e f => process_entry_congr fileBuf num_wavs opened i r r2 a b c d e f,
    hrej, hacc⟩
  intro nm decoded samples nCh rate file ho
  rw [wavStart_exact num_wavs _ hn hoff]
  have hch : ∀ f : Nat, (if f &&& 1 ≠ 0 then (2 : Int) else 1) = 1
      ∨ (if f &&& 1 ≠ 0 then (2 : Int) else 1) = 2 := by
    intro f
    by_cases hf : f &&& 1 ≠ 0
    · rw [if_pos hf]; exact Or.inr rfl
    · rw [if_neg hf]; exact Or.inl rfl
  by_cases hgt : 64 + 64 * num_wavs + WaveAttributes.offset r + WaveAttributes.wavSize r
      > fileBuf.length
  · rw [if_pos hgt] at ho
    exact absurd ho (by simp)
  rw [if_neg hgt] at ho
  by_cases h4 : WaveAttributes.flags r &&& 4 ≠ 0
  · rw [if_pos h4, EntryOutcome.exported.injEq] at ho
    obtain ⟨-, hd, hs, hc, hrate, hfile⟩ := ho
    subst hd hs hc hrate hfile
    obtain ⟨smp, hsmp, hdec, -⟩ := decode_adpcm_slots
      ((fileBuf.drop (64 + 64 * num_wavs + WaveAttributes.offset r)).take
        (WaveAttributes.wavSize r)) (WaveAttributes.flags r)
    rw [← hsmp]
    refine ⟨rfl, hch _, ⟨fun _ => h4, fun _ => rfl⟩, rfl,
      fun stream hst => write_wav_channel_bytes _ _ _ _ _ hst, fun _ => hdec,
      fun h => absurd h (by simp)⟩
  · rw [if_neg h4] at ho
    by_cases hodd : WaveAttributes.wavSize r % 2 ≠ 0
    · rw [if_pos hodd] at ho
      exact absurd ho (by simp)
    · rw [if_neg hodd, EntryOutcome.exported.injEq] at ho
      obtain ⟨-, hd, hs, hc, hrate, hfile⟩ := ho
      subst hd hs hc hrate hfile
      refine ⟨rfl, hch _, ⟨fun h => absurd h (by simp), fun h => absurd h h4⟩, rfl,
        fun stream hst => write_wav_channel_bytes _ _ _ _ _ hst,
        fun h => absurd h (by simp), fun _ => rfl⟩

set_option maxRecDepth 100000 in
theorem C15_flag_dispatch_witness :
    1 < 4294967296 ∧
    RecordOk
      (List.replicate 8 0 ++ [5, 0, 0, 0] ++ List.replicate 12 0 ++ [1, 0, 0, 0]
        ++ List.replicate 36 0) ∧
    payload_range (List.replicate 128 0 ++ [0x7F]).length 1
      (WaveAttributes.offset
        (List.replicate 8 0 ++ [5, 0, 0, 0] ++ List.replicate 12 0 ++ [1, 0, 0, 0]
          ++ List.replicate 36 0))
      (WaveAttributes.wavSize
        (List.replicate 8 0 ++ [5, 0, 0, 0] ++ List.replicate 12 0 ++ [1, 0, 0, 0]
          ++ List.replicate 36 0))
      = some (128, 129) ∧
    WaveAttributes.flags
      (List.replicate 8 0 ++ [5, 0, 0, 0] ++ List.replicate 12 0 ++ [1, 0, 0, 0]
        ++ List.replicate 36 0) &&& 4 ≠ 0 ∧
    WaveAttributes.wavSize
      (List.replicate 8 0 ++ [5, 0, 0, 0] ++ List.replicate 12 0 ++ [1, 0, 0, 0]
        ++ List.replicate 36 0) % 2 ≠ 0 ∧
    ∃ (nm : List Byte) (samples : List Int),
      samples.length = 2 * WaveAttributes.wavSize
        (List.replicate 8 0 ++ [5, 0, 0, 0] ++ List.replicate 12 0 ++ [1, 0, 0, 0]
          ++ List.replicate 36 0) ∧
      process_entry (List.replicate 128 0 ++ [0x7F]) 1 true 0
        (List.replicate 8 0 ++ [5, 0, 0, 0] ++ List.replicate 12 0 ++ [1, 0, 0, 0]
          ++ List.replicate 36 0)
        = some (.exported nm true samples
          (if WaveAttributes.flags
              (List.replicate 8 0 ++ [5, 0, 0, 0] ++ List.replicate 12 0 ++ [1, 0, 0, 0]
                ++ List.replicate 36 0) &&& 1 ≠ 0
            then 2 else 1)
          (WaveAttributes.bitrate
            (List.replicate 8 0 ++ [5, 0, 0, 0] ++ List.replicate 12 0 ++ [1, 0, 0, 0]
              ++ List.replicate 36 0))
          (write_wav true samples
            (if WaveAttributes.flags
                (List.replicate 8 0 ++ [5, 0, 0, 0] ++ List.replicate 12 0 ++ [1, 0, 0, 0]
                  ++ List.replicate 36 0) &&& 1 ≠ 0
              then 2 else 1)
            (WaveAttributes.bitrate
              (List.replicate 8 0 ++ [5, 0, 0, 0] ++ List.replicate 12 0 ++ [1, 0, 0, 0]
                ++ List.replicate 36 0)))) :=
  ⟨by decide, ⟨by rfl, by rfl⟩, by rfl, by decide, by decide,
    ((C15_flag_dispatch (List.replicate 128 0 ++ [0x7F]) 1 true 0
      (List.replicate 8 0 ++ [5, 0, 0, 0] ++ List.replicate 12 0 ++ [1, 0, 0, 0]
        ++ List.replicate 36 0)
      (List.replicate 8 0 ++ [5, 0, 0, 0] ++ List.replicate 12 0 ++ [1, 0, 0, 0]
        ++ List.replicate 36 0)
      (by decide) ⟨by rfl, by rfl⟩).2.2.2.2 128 129 (by rfl)).2.2.elim
      fun nm h => (h.2.1 (by decide)).elim
        fun samples hs => ⟨nm, samples, hs.2.1, hs.2.2.1⟩⟩

theorem wavName_set (e : List Byte) (he : e.length = 64) :
    WaveAttributes.wavName (e.set (36 + 27) 0) = (WaveAttributes.wavName e).take 27 ++ [0] := by
  unfold WaveAttributes.wavName
  apply List.ext_getElem?
  intro j
  by_cases hj : j < 27
  · rw [List.getElem?_append_left (by
      rw [List.length_take, List.length_take, List.length_drop]; omega)]
    rw [List.getElem?_take_of_lt (by omega), List.getElem?_drop,
      List.getElem?_set_ne (by omega), List.getElem?_take_of_lt hj,
      List.getElem?_take_of_lt (by omega), List.getElem?_drop]
  · by_cases hj2 : j = 27
    · subst hj2
      rw [List.getElem?_take_of_lt (by omega), List.getElem?_drop,
        List.getElem?_set_self (by omega),
        List.getElem?_append_right (by
          rw [List.length_take, List.length_take, List.length_drop]; omega)]
      have hl : ((List.drop 36 e).take 28 |>.take 27).length = 27 := by
        rw [List.length_take, List.length_take, List.length_drop]; omega
      rw [hl]
      rfl
    · rw [List.getElem?_eq_none (by
        rw [List.length_take, List.length_drop, List.length_set]; omega)]
      rw [List.getElem?_eq_none (by
        rw [List.length_append, List.length_take, List.length_take, List.length_drop,
          List.length_singleton]; omega)]

theorem takeWhile_append_zero (pre : List Byte) :
    (pre ++ [0]).takeWhile (fun b => decide (b ≠ 0))
      = pre.takeWhile fun b => decide (b ≠ 0) := by
  induction pre with
  | nil => rfl
  | cons b pre ih =>
    by_cases hb : b = 0
    · subst hb; rfl
    · have hd : decide (b ≠ 0) = true := decide_eq_true hb
      simp only [List.cons_append, List.takeWhile_cons, hd, if_true, ih]

/-- C16: for every 64-byte record and index `i`, the reader overwrites the 28th
byte of the name field with the terminator (every iteration of its loop stores the
64 bytes it copied with that byte set to zero), so the name derived from the stored
record is the bytes of the name field before its first zero byte, at most 27 of
them, whatever the 28 bytes in the file are; the output file name is that name
followed by `.wav` if the first byte of the name field is non-zero, and `wave_`
followed by the decimal index `i` and `.wav` if it is zero. -/
theorem C16_output_naming (e : List Byte) (i : Nat) (he : e.length = 64) :
    RecordOk (e.set (36 + 27) 0) ∧
    WaveAttributes.wavName (e.set (36 + 27) 0) = (WaveAttributes.wavName e).take 27 ++ [0] ∧
    (∃ name : List Byte,
      c_string (WaveAttributes.wavName (e.set (36 + 27) 0)) = some name ∧
      name = (WaveAttributes.wavName (e.set (36 + 27) 0)).takeWhile (fun b => decide (b ≠ 0)) ∧
      name = ((WaveAttributes.wavName e).take 27).takeWhile (fun b => decide (b ≠ 0)) ∧
      name.length ≤ 27 ∧ (∀ b ∈ name, b ≠ 0) ∧
      ∃ c0 : Byte, (WaveAttributes.wavName e)[0]? = some c0 ∧
        (WaveAttributes.wavName (e.set (36 + 27) 0))[0]? = some c0 ∧
        (c0 ≠ 0 → output_name (e.set (36 + 27) 0) i = some (name ++ str_dot_wav)) ∧
        (c0 = 0 → name = [] ∧
          output_name (e.set (36 + 27) 0) i
            = some (str_wave ++ to_string_u32 i ++ str_dot_wav))) ∧
    (∀ (fileBuf : List Byte) (k : Nat), k + 1 ≤ 4294967296 →
      64 + 64 * (k + 1) ≤ fileBuf.length →
      read_entries fileBuf k 1
        = .ok [((fileBuf.drop (64 + 64 * k)).take 64).set (36 + 27) 0]) ∧
    to_string_u32 0 = [0x30] ∧ to_string_u32 12 = [0x31, 0x32] ∧
    to_string_u32 4294967295 = [0x34, 0x32, 0x39, 0x34, 0x39, 0x36, 0x37, 0x32, 0x39, 0x35] := by
  have hok := recordOk_set e he
  have hset := wavName_set e he
  obtain ⟨hl, h27⟩ := wavName_of_recordOk _ hok
  obtain ⟨hcs, hlen⟩ := c_string_of_zero _ 27 h27
  obtain ⟨c0, hc0, hname⟩ := output_name_of_recordOk _ i hok
  have hfirst : (WaveAttributes.wavName e)[0]? = some c0 := by
    rw [hset, List.getElem?_append_left (by
      unfold WaveAttributes.wavName
      rw [List.length_take, List.length_take, List.length_drop]; omega),
      List.getElem?_take_of_lt (by omega)] at hc0
    exact hc0
  refine ⟨hok, hset, ⟨_, hcs, rfl, by rw [hset, takeWhile_append_zero], hlen, ?_, c0, hfirst,
    hc0, ?_, ?_⟩, fun fileBuf k hk hlen => read_entries_ok fileBuf 1 k hk hlen,
    by decide, by decide, by decide⟩
  · intro b hb
    have := List.mem_takeWhile_imp hb
    exact of_decide_eq_true this
  · intro hne
    rw [hname, if_pos hne]
  · intro hz
    refine ⟨?_, by rw [hname, if_neg (fun h => h hz)]⟩
    have hl0 : 0 < (WaveAttributes.wavName (e.set (36 + 27) 0)).length := by omega
    have e0 : (WaveAttributes.wavName (e.set (36 + 27) 0))
        = 0 :: (WaveAttributes.wavName (e.set (36 + 27) 0)).tail := by
      cases hw : WaveAttributes.wavName (e.set (36 + 27) 0) with
      | nil => rw [hw] at hl0; exact absurd hl0 (by simp)
      | cons a t =>
        rw [hw] at hc0
        simp only [List.getElem?_cons_zero, Option.some.injEq] at hc0
        rw [hc0, hz]; rfl
    rw [e0]
    rfl

theorem C16_output_naming_witness :
    (List.replicate 64 (0 : Byte)).length = 64 ∧
    RecordOk ((List.replicate 64 (0 : Byte)).set (36 + 27) 0) :=
  ⟨by rfl, (C16_output_naming (List.replicate 64 0) 5 (by rfl)).1⟩

end Sdpdump
